import Mathlib

/-!
# Verification of the `flush` tokenizer (`src/lexing/lexer.rs`)

Shallow embedding of the scanner: the `Lexer` struct, its cursor primitives
(`current`, `previous`, `advance`, `is_at_end`), the sub-scanners
(`parse_string`, `parse_number`, `parse_identifier`, `skip_comment`), the
dispatch (`parse_token`) and the driving loop (`tokenize`).

Modelling conventions:
* The source text is a `List Char`; `position` is a plain `Nat`.  The Rust
  code indexes characters with `self.program.chars().nth(position)` but
  bounds-checks with the byte length `self.program.len()`; both are modelled
  faithfully (`nthChar` versus `byteLen`).
* Rust `usize` arithmetic is arithmetic modulo `2^64` (release semantics).
  The only place where wrap-around can occur is the `self.position - 1`
  inside `previous`, modelled by `prevIndex`.
* `.unwrap()` on a failed parse is a panic; it is modelled by a dedicated
  `LexResult.panicked` outcome (and by `Option` on the sub-scanners).
* Each `while` loop is expressed as structural recursion on a fuel argument;
  the wrappers instantiate the fuel with `byteLen program + 1`, which is
  proved sufficient (every loop iteration strictly increases `position`,
  which iterations keep below `byteLen program`).
* The 32-bit numeric parses of the Rust standard library are modelled by
  `parseU32` (value semantics with the `u32` range check) and, for floats,
  by the acceptor `f32Accepts` of the documented `f32::from_str` grammar;
  the IEEE-754 value of an accepted float literal is represented by its raw
  accepted text, since only branch selection and parse success/failure are
  under verification here.
-/

/-- Token kinds of the lexer, mirroring `enum TokenKind` of the source.
`Int` carries the parsed `u32` value (as a `Nat` below `2^32`); `Float`
carries the raw accepted text standing for the parsed `f32`. -/
inductive TokenKind where
  | LParen
  | RParen
  | LBrace
  | RBrace
  | LBracket
  | RBracket
  | Colon
  | Semicolon
  | Comma
  | Operator (c : Char)
  | Def
  | Ident (s : String)
  | Int (n : Nat)
  | Float (raw : String)
  | String (s : String)
  deriving DecidableEq, Repr

/-- A produced token: `struct Token { line, kind }`. -/
structure Token where
  line : Nat
  kind : TokenKind
  deriving DecidableEq, Repr

/-- `FlushError(file, line, message, hint)` of `src/error.rs`. -/
structure FlushError where
  file : String
  line : Nat
  message : String
  hint : Option String
  deriving DecidableEq, Repr

/-- Outcome of a lexer computation: success, a returned `FlushError`, or a
Rust panic (from `.unwrap()` on a failed parse). -/
inductive LexResult (α : Type) where
  | ok (a : α)
  | err (e : FlushError)
  | panicked
  deriving DecidableEq, Repr

/-- The scanner state, mirroring `struct Lexer`. -/
structure Lexer where
  program : List Char
  file : String
  tokens : List Token
  position : Nat
  line : Nat
  deriving DecidableEq, Repr

/-- `Lexer::new`: position `0`, no tokens, line counter starting at `1`. -/
def Lexer.new (program : List Char) (file : String) : Lexer :=
  { program := program, file := file, tokens := [], position := 0, line := 1 }

/-- Number of values of Rust's `usize` type (64-bit target). -/
def USIZE : Nat := 2 ^ 64

/-- UTF-8 byte length of the source text: Rust's `String::len`. -/
def byteLen (s : List Char) : Nat := (s.map Char.utf8Size).sum

/-- `self.program.chars().nth(i)`: the `i`-th character, `none` past the
end.  The explicit bound check only makes out-of-range lookups (such as the
wrapped index `2^64 - 1`) evaluate without walking the list. -/
def nthChar (s : List Char) (i : Nat) : Option Char :=
  if i < s.length then s.get? i else none

/-- Rust `self.position - 1` in `usize` arithmetic: subtraction wrapping
modulo `2^64` (release semantics); at `0` it wraps to `2^64 - 1`. -/
def prevIndex (p : Nat) : Nat := (p + (USIZE - 1)) % USIZE

/-- `current()`: the character at `position`, unconsumed. -/
def current (l : Lexer) : Option Char := nthChar l.program l.position

/-- `previous()`: `self.program.chars().nth(self.position - 1)`, with the
`usize` subtraction modelled by `prevIndex`. -/
def previous (l : Lexer) : Option Char := nthChar l.program (prevIndex l.position)

/-- `advance()`: increments `position`, then returns `previous()` of the new
state.  (`position` stays a `Nat`: reachable positions never exceed
`byteLen program + 1`, far below `2^64` for a Rust string.) -/
def advance (l : Lexer) : Option Char × Lexer :=
  let l1 : Lexer := { l with position := l.position + 1 }
  (previous l1, l1)

/-- `is_at_end()`: `position >= self.program.len()` (byte length). -/
def is_at_end (l : Lexer) : Bool := decide (byteLen l.program ≤ l.position)

/-- `push_token`: appends a token carrying the current line. -/
def push_token (l : Lexer) (kind : TokenKind) : Lexer :=
  { l with tokens := l.tokens ++ [{ line := l.line, kind := kind }] }

/-- Loop of `skip_comment`, fuelled:
`while !is_at_end() && advance() != Some('\n') { advance(); }`. -/
def skipCommentLoopF : Nat → Lexer → Lexer
  | 0, l => l
  | fuel + 1, l =>
    if is_at_end l then l
    else if (advance l).1 = some '\n' then (advance l).2
    else skipCommentLoopF fuel (advance (advance l).2).2

/-- `skip_comment`: run the loop, then `self.line += 1` unconditionally. -/
def skip_comment (l : Lexer) : Lexer :=
  let l1 := skipCommentLoopF (byteLen l.program + 1) l
  { l1 with line := l1.line + 1 }

/-- Loop of `parse_string`, fuelled.  While not at end and the current
character is not `'"'`: a raw `'\n'` raises the (misspelled) illegal-newline
error with its hint; a `none` current character breaks; any other character
is appended to the buffer before advancing. -/
def parseStringLoopF : Nat → Lexer → List Char → Except FlushError (Lexer × List Char)
  | 0, l, buf => .ok (l, buf)
  | fuel + 1, l, buf =>
    if is_at_end l then .ok (l, buf)
    else if current l = some '"' then .ok (l, buf)
    else
      match current l with
      | none => .ok (l, buf)
      | some c =>
        if c = '\n' then
          .error { file := l.file, line := l.line,
                   message := "Ilegal newline in string",
                   hint := some "use \\n instead" }
        else parseStringLoopF fuel (advance l).2 (buf ++ [c])

/-- `parse_string`: after the loop, a current character other than `'"'`
means the input ended first (unterminated string, no hint); otherwise the
closing quote is consumed and `String(buffer)` is emitted. -/
def parse_string (l : Lexer) : Except FlushError Lexer :=
  match parseStringLoopF (byteLen l.program + 1) l [] with
  | .error e => .error e
  | .ok (l1, buf) =>
    if current l1 = some '"' then
      .ok (push_token (advance l1).2 (.String ⟨buf⟩))
    else
      .error { file := l1.file, line := l1.line,
               message := "Unterminated string", hint := none }

/-- Numeric value of a digit string (most significant digit first). -/
def digitsToNat (s : List Char) : Nat :=
  s.foldl (fun a c => 10 * a + (c.toNat - '0'.toNat)) 0

/-- The digit-run acceptance of Rust `str::parse::<u32>()`: a nonempty run
of ASCII digits whose value fits in 32 bits.  (Rust checks overflow digit by
digit; as the accumulated value only grows, that is equivalent to the final
bound used here.) -/
def parseU32digits (t : List Char) : Option Nat :=
  if t ≠ [] ∧ t.all Char.isDigit ∧ digitsToNat t < 2 ^ 32 then
    some (digitsToNat t)
  else none

/-- Model of Rust `str::parse::<u32>()` proper: an optional `'+'` sign is
stripped, then the digit run is parsed. -/
def parseU32 (s : List Char) : Option Nat :=
  match s with
  | '+' :: r => parseU32digits r
  | r => parseU32digits r

/-- Optional leading sign of a numeric literal (also used inside the
exponent of the float grammar). -/
def stripSign : List Char → List Char
  | '+' :: t => t
  | '-' :: t => t
  | s => s

/-- Mantissa of the `f32::from_str` grammar:
`Digit+ | Digit+ '.' Digit* | Digit* '.' Digit+`; yields the remainder. -/
def f32Mantissa (s : List Char) : Option (List Char) :=
  match s.dropWhile Char.isDigit with
  | '.' :: r2 =>
    if (s.takeWhile Char.isDigit).isEmpty ∧ (r2.takeWhile Char.isDigit).isEmpty then none
    else some (r2.dropWhile Char.isDigit)
  | r1 => if (s.takeWhile Char.isDigit).isEmpty then none else some r1

/-- Exponent tail of the `f32::from_str` grammar: empty, or
`('e'|'E') Sign? Digit+` consuming the whole remainder. -/
def f32ExpTail : List Char → Bool
  | [] => true
  | 'e' :: r =>
    !((stripSign r).takeWhile Char.isDigit).isEmpty &&
      ((stripSign r).dropWhile Char.isDigit).isEmpty
  | 'E' :: r =>
    !((stripSign r).takeWhile Char.isDigit).isEmpty &&
      ((stripSign r).dropWhile Char.isDigit).isEmpty
  | _ => false

/-- Acceptor of the documented grammar of Rust `str::parse::<f32>()`:
an optional sign, then case-insensitive `inf`/`infinity`/`nan` or a number
with optional exponent.  `true` exactly when the Rust parse returns `Ok`. -/
def f32Accepts (s : List Char) : Bool :=
  if (stripSign s).map Char.toLower = "inf".toList ∨
      (stripSign s).map Char.toLower = "infinity".toList ∨
      (stripSign s).map Char.toLower = "nan".toList then true
  else
    match f32Mantissa (stripSign s) with
    | some rest => f32ExpTail rest
    | none => false

/-- Loop of `parse_number`, fuelled: while not at end, break on a `none`
current character, consume digits and `'.'` into the raw accumulator, break
on anything else. -/
def parseNumberLoopF : Nat → Lexer → List Char → Lexer × List Char
  | 0, l, raw => (l, raw)
  | fuel + 1, l, raw =>
    if is_at_end l then (l, raw)
    else
      match current l with
      | none => (l, raw)
      | some c =>
        if c = '.' ∨ c.isDigit then
          parseNumberLoopF fuel (advance l).2 (raw ++ [c])
        else (l, raw)

/-- `parse_number`: seeds the accumulator with `previous().unwrap()` (a
`none` is the modelled panic), runs the loop, then tries `parse::<u32>()`
and falls back to `parse::<f32>().unwrap()` — whose failure is again the
modelled panic. -/
def parse_number (l : Lexer) : Option Lexer :=
  match previous l with
  | none => none
  | some c0 =>
    match parseU32 (parseNumberLoopF (byteLen l.program + 1) l [c0]).2 with
    | some n =>
      some (push_token (parseNumberLoopF (byteLen l.program + 1) l [c0]).1 (.Int n))
    | none =>
      if f32Accepts (parseNumberLoopF (byteLen l.program + 1) l [c0]).2 then
        some (push_token (parseNumberLoopF (byteLen l.program + 1) l [c0]).1
          (.Float ⟨(parseNumberLoopF (byteLen l.program + 1) l [c0]).2⟩))
      else none

/-- Loop of `parse_identifier`, fuelled: consume ASCII alphanumerics. -/
def parseIdentLoopF : Nat → Lexer → List Char → Lexer × List Char
  | 0, l, acc => (l, acc)
  | fuel + 1, l, acc =>
    if is_at_end l then (l, acc)
    else
      match current l with
      | none => (l, acc)
      | some c =>
        if c.isAlphanum then parseIdentLoopF fuel (advance l).2 (acc ++ [c])
        else (l, acc)

/-- `parse_identifier`: seeds with `previous().unwrap()`, accumulates the
alphanumeric run, and emits `Def` for the exact spelling `"def"`, otherwise
`Ident`. -/
def parse_identifier (l : Lexer) : Option Lexer :=
  match previous l with
  | none => none
  | some c0 =>
    let r := parseIdentLoopF (byteLen l.program + 1) l [c0]
    some (push_token r.1 (if (⟨r.2⟩ : String) = "def" then .Def else .Ident ⟨r.2⟩))

/-- Arm selection of the `match character` dispatch in `parse_token`,
with the arms in source order (the digit guard is tested before the
alphanumeric guard). -/
inductive LexAction where
  | push (k : TokenKind)
  | string
  | comment
  | newline
  | number
  | identifier
  | ignore
  deriving DecidableEq, Repr

/-- Which arm of the `parse_token` dispatch a consumed character selects. -/
def dispatch (c : Char) : LexAction :=
  if c = '(' then .push .LParen
  else if c = ')' then .push .RParen
  else if c = '\x7b' then .push .LBrace
  else if c = '\x7d' then .push .RBrace
  else if c = '[' then .push .LBracket
  else if c = ']' then .push .RBracket
  else if c = ':' then .push .Colon
  else if c = ';' then .push .Semicolon
  else if c = ',' then .push .Comma
  else if c = '+' ∨ c = '-' ∨ c = '*' ∨ c = '/' ∨ c = '%' ∨ c = '^' ∨ c = '=' then
    .push (.Operator c)
  else if c = '"' then .string
  else if c = '#' then .comment
  else if c = '\n' then .newline
  else if c.isDigit then .number
  else if c.isAlphanum then .identifier
  else .ignore

/-- `parse_token`: one `advance()`; a `None` from it returns `Ok(())`;
otherwise the arm selected by `dispatch` runs on the consumed character. -/
def parse_token (l : Lexer) : LexResult Lexer :=
  match (advance l).1 with
  | none => .ok (advance l).2
  | some c =>
    match dispatch c with
    | .push k => .ok (push_token (advance l).2 k)
    | .string =>
      match parse_string (advance l).2 with
      | .error e => .err e
      | .ok l2 => .ok l2
    | .comment => .ok (skip_comment (advance l).2)
    | .newline => .ok { (advance l).2 with line := (advance l).2.line + 1 }
    | .number =>
      match parse_number (advance l).2 with
      | some l2 => .ok l2
      | none => .panicked
    | .identifier =>
      match parse_identifier (advance l).2 with
      | some l2 => .ok l2
      | none => .panicked
    | .ignore => .ok (advance l).2

/-- Main loop of `tokenize`, fuelled:
`while !is_at_end() { parse_token()? }` followed by `Ok(tokens.clone())`. -/
def tokenizeLoopF : Nat → Lexer → LexResult (List Token)
  | 0, l => .ok l.tokens
  | fuel + 1, l =>
    if is_at_end l then .ok l.tokens
    else
      match parse_token l with
      | .ok l1 => tokenizeLoopF fuel l1
      | .err e => .err e
      | .panicked => .panicked

/-- `Lexer::tokenize`, with the (sufficient) fuel `byteLen program + 1`. -/
def Lexer.tokenize (l : Lexer) : LexResult (List Token) :=
  tokenizeLoopF (byteLen l.program + 1) l

/-- Tokenize a source text under a file label: `Lexer::new` + `tokenize`. -/
def tokenizeSource (program : List Char) (file : String) : LexResult (List Token) :=
  (Lexer.new program file).tokenize

/-- Rust `char::is_whitespace`: the Unicode `White_Space` code points. -/
def isRustWhitespace (c : Char) : Bool :=
  c ∈ ['\t', '\n', '\x0b', '\x0c', '\r', ' ', '\u0085', '\u00A0',
       '\u1680', '\u2000', '\u2001', '\u2002', '\u2003', '\u2004', '\u2005',
       '\u2006', '\u2007', '\u2008', '\u2009', '\u200A', '\u2028', '\u2029',
       '\u202F', '\u205F', '\u3000']

/-- Inputs made only of whitespace and `#`-comments, each comment correctly
terminated by a newline; comment bodies are free of raw newlines. -/
inductive WsComments : List Char → Prop
  | nil : WsComments []
  | ws (c : Char) (rest : List Char) :
      isRustWhitespace c = true → WsComments rest → WsComments (c :: rest)
  | comment (body rest : List Char) :
      (∀ c ∈ body, c ≠ '\n') → WsComments rest →
      WsComments ('#' :: (body ++ '\n' :: rest))

example : tokenizeSource "( \x7d [".toList "t" =
    .ok [⟨1, .LParen⟩, ⟨1, .RBrace⟩, ⟨1, .LBracket⟩] := by decide

example : tokenizeSource "32 18.25".toList "t" =
    .ok [⟨1, .Int 32⟩, ⟨1, .Float "18.25"⟩] := by decide

example : tokenizeSource "def user".toList "t" =
    .ok [⟨1, .Def⟩, ⟨1, .Ident "user"⟩] := by decide

example : tokenizeSource "# hello, world\n#lorem".toList "t" = .ok [] := by decide

example : tokenizeSource "\"Hello, World!\"".toList "t" =
    .ok [⟨1, .String "Hello, World!"⟩] := by decide

example : tokenizeSource "\"Hello flush".toList "t" =
    .err ⟨"t", 1, "Unterminated string", none⟩ := by decide

example : tokenizeSource "1.2.3".toList "t" = .panicked := by decide

/-! ## Basic facts about the cursor primitives -/

theorem USIZE_pos : 0 < USIZE := by decide

theorem prevIndex_succ (p : Nat) (h : p < USIZE) : prevIndex (p + 1) = p := by
  unfold prevIndex
  have h1 : p + 1 + (USIZE - 1) = p + USIZE := by
    have h2 : 0 < USIZE := USIZE_pos
    omega
  rw [h1, Nat.add_mod_right]
  exact Nat.mod_eq_of_lt h

theorem nthChar_eq_get? (s : List Char) (i : Nat) : nthChar s i = s.get? i := by
  unfold nthChar
  split
  · rfl
  · exact (List.get?_eq_none.mpr (by omega)).symm

theorem head?_drop (s : List Char) (i : Nat) : (s.drop i).head? = s.get? i := by
  induction s generalizing i with
  | nil => simp
  | cons a t ih =>
    cases i with
    | zero => simp
    | succ j => simpa using ih j

theorem drop_tail (s : List Char) (i : Nat) : s.drop (i + 1) = (s.drop i).tail := by
  rw [← List.drop_drop]
  simp [List.drop_one]

theorem current_of_drop {l : Lexer} {c : Char} {t : List Char}
    (h : l.program.drop l.position = c :: t) : current l = some c := by
  unfold current
  rw [nthChar_eq_get?, ← head?_drop, h]
  rfl

theorem current_none_of_ge {l : Lexer} (h : l.program.length ≤ l.position) :
    current l = none := by
  unfold current
  rw [nthChar_eq_get?]
  exact List.get?_eq_none.mpr h

theorem drop_advance {l : Lexer} {c : Char} {t : List Char}
    (h : l.program.drop l.position = c :: t) :
    l.program.drop (l.position + 1) = t := by
  rw [drop_tail, h]
  rfl

theorem pos_lt_length_of_drop {l : Lexer} {c : Char} {t : List Char}
    (h : l.program.drop l.position = c :: t) : l.position < l.program.length := by
  have h1 := congrArg List.length h
  rw [List.length_drop] at h1
  simp only [List.length_cons] at h1
  omega

theorem length_le_byteLen (s : List Char) : s.length ≤ byteLen s := by
  unfold byteLen
  induction s with
  | nil => simp
  | cons a t ih =>
    simp only [List.map_cons, List.sum_cons, List.length_cons]
    have h := Char.utf8Size_pos a
    omega

theorem not_atEnd_of_drop {l : Lexer} {c : Char} {t : List Char}
    (h : l.program.drop l.position = c :: t) : is_at_end l = false := by
  have h1 := pos_lt_length_of_drop h
  have h2 := length_le_byteLen l.program
  simp only [is_at_end, decide_eq_false_iff_not]
  omega

theorem atEnd_false_pos {l : Lexer} (h : is_at_end l = false) :
    l.position < byteLen l.program := by
  simp only [is_at_end, decide_eq_false_iff_not] at h
  omega

theorem advance_eq (l : Lexer) (h : l.position < USIZE) :
    advance l = (nthChar l.program l.position, { l with position := l.position + 1 }) := by
  unfold advance previous
  simp only [Prod.mk.injEq]
  rw [prevIndex_succ l.position h]
  simp

theorem advance_fst (l : Lexer) (h : l.position < USIZE) :
    (advance l).1 = nthChar l.program l.position := by
  rw [advance_eq l h]

theorem advance_snd (l : Lexer) :
    (advance l).2 = { l with position := l.position + 1 } := rfl

theorem atEnd_true_pos {l : Lexer} (h : is_at_end l = true) :
    byteLen l.program ≤ l.position := by
  simpa [is_at_end] using h

theorem push_token_state (l : Lexer) (k : TokenKind) :
    (push_token l k).program = l.program ∧ (push_token l k).file = l.file ∧
    (push_token l k).position = l.position ∧ (push_token l k).line = l.line ∧
    (push_token l k).tokens = l.tokens ++ [{ line := l.line, kind := k }] :=
  ⟨rfl, rfl, rfl, rfl, rfl⟩

/-! ## State preservation and position growth of the loops -/

theorem skipCommentLoopF_mono (fuel : Nat) (l : Lexer) :
    (skipCommentLoopF fuel l).program = l.program ∧
    (skipCommentLoopF fuel l).file = l.file ∧
    (skipCommentLoopF fuel l).tokens = l.tokens ∧
    (skipCommentLoopF fuel l).line = l.line ∧
    l.position ≤ (skipCommentLoopF fuel l).position := by
  induction fuel generalizing l with
  | zero => exact ⟨by trivial, by trivial, by trivial, by trivial, Nat.le_refl _⟩
  | succ n ih =>
    simp only [skipCommentLoopF]
    by_cases hend : is_at_end l = true
    · simp only [hend, if_true]
      exact ⟨by trivial, by trivial, by trivial, by trivial, Nat.le_refl _⟩
    · simp only [hend, Bool.false_eq_true, if_false]
      by_cases hnl : (advance l).1 = some '\n'
      · simp only [hnl, if_true]
        exact ⟨rfl, rfl, rfl, rfl, Nat.le_succ _⟩
      · simp only [hnl, if_false]
        have h2 := ih (advance (advance l).2).2
        have e5 : (advance (advance l).2).2.position = l.position + 2 := rfl
        rw [e5] at h2
        exact ⟨h2.1, h2.2.1, h2.2.2.1, h2.2.2.2.1, by
          have h5 := h2.2.2.2.2
          omega⟩

theorem skip_comment_state (l : Lexer) :
    (skip_comment l).program = l.program ∧
    (skip_comment l).file = l.file ∧
    (skip_comment l).tokens = l.tokens ∧
    (skip_comment l).line = l.line + 1 ∧
    l.position ≤ (skip_comment l).position := by
  have h := skipCommentLoopF_mono (byteLen l.program + 1) l
  refine ⟨h.1, h.2.1, h.2.2.1, ?_, h.2.2.2.2⟩
  show (skipCommentLoopF (byteLen l.program + 1) l).line + 1 = l.line + 1
  rw [h.2.2.2.1]

theorem parseStringLoopF_mono (fuel : Nat) :
    ∀ (l : Lexer) (buf : List Char) (l1 : Lexer) (buf1 : List Char),
      parseStringLoopF fuel l buf = .ok (l1, buf1) →
      l1.program = l.program ∧ l1.file = l.file ∧ l1.tokens = l.tokens ∧
      l1.line = l.line ∧ l.position ≤ l1.position := by
  induction fuel with
  | zero =>
    intro l buf l1 buf1 h
    simp only [parseStringLoopF, Except.ok.injEq, Prod.mk.injEq] at h
    obtain ⟨rfl, rfl⟩ := h
    exact ⟨by trivial, by trivial, by trivial, by trivial, Nat.le_refl _⟩
  | succ n ih =>
    intro l buf l1 buf1 h
    simp only [parseStringLoopF] at h
    by_cases hend : is_at_end l = true
    · simp only [hend, if_true, Except.ok.injEq, Prod.mk.injEq] at h
      obtain ⟨rfl, rfl⟩ := h
      exact ⟨by trivial, by trivial, by trivial, by trivial, Nat.le_refl _⟩
    · simp only [hend, Bool.false_eq_true, if_false] at h
      by_cases hq : current l = some '"'
      · simp only [hq, if_true, Except.ok.injEq, Prod.mk.injEq] at h
        obtain ⟨rfl, rfl⟩ := h
        exact ⟨by trivial, by trivial, by trivial, by trivial, Nat.le_refl _⟩
      · simp only [hq, if_false] at h
        cases hc : current l with
        | none =>
          rw [hc] at h
          simp only [Except.ok.injEq, Prod.mk.injEq] at h
          obtain ⟨rfl, rfl⟩ := h
          exact ⟨by trivial, by trivial, by trivial, by trivial, Nat.le_refl _⟩
        | some c =>
          rw [hc] at h
          by_cases hcn : c = '\n'
          · simp only [hcn, if_true] at h
            exact Except.noConfusion h
          · simp only [hcn, if_false] at h
            have h2 := ih (advance l).2 (buf ++ [c]) l1 buf1 h
            have e5 : (advance l).2.position = l.position + 1 := rfl
            rw [e5] at h2
            exact ⟨h2.1, h2.2.1, h2.2.2.1, h2.2.2.2.1, by
              have h5 := h2.2.2.2.2
              omega⟩

theorem parseNumberLoopF_mono (fuel : Nat) :
    ∀ (l : Lexer) (raw : List Char),
      (parseNumberLoopF fuel l raw).1.program = l.program ∧
      (parseNumberLoopF fuel l raw).1.file = l.file ∧
      (parseNumberLoopF fuel l raw).1.tokens = l.tokens ∧
      (parseNumberLoopF fuel l raw).1.line = l.line ∧
      l.position ≤ (parseNumberLoopF fuel l raw).1.position := by
  induction fuel with
  | zero => intro l raw; exact ⟨by trivial, by trivial, by trivial, by trivial, Nat.le_refl _⟩
  | succ n ih =>
    intro l raw
    simp only [parseNumberLoopF]
    by_cases hend : is_at_end l = true
    · simp only [hend, if_true]
      exact ⟨by trivial, by trivial, by trivial, by trivial, Nat.le_refl _⟩
    · simp only [hend, Bool.false_eq_true, if_false]
      cases hc : current l with
      | none => exact ⟨by trivial, by trivial, by trivial, by trivial, Nat.le_refl _⟩
      | some c =>
        by_cases hd : c = '.' ∨ c.isDigit
        · simp only [hd, if_true]
          have h2 := ih (advance l).2 (raw ++ [c])
          have e5 : (advance l).2.position = l.position + 1 := rfl
          rw [e5] at h2
          exact ⟨h2.1, h2.2.1, h2.2.2.1, h2.2.2.2.1, by
            have h5 := h2.2.2.2.2
            omega⟩
        · simp only [hd, if_false]
          exact ⟨by trivial, by trivial, by trivial, by trivial, Nat.le_refl _⟩

theorem parseIdentLoopF_mono (fuel : Nat) :
    ∀ (l : Lexer) (acc : List Char),
      (parseIdentLoopF fuel l acc).1.program = l.program ∧
      (parseIdentLoopF fuel l acc).1.file = l.file ∧
      (parseIdentLoopF fuel l acc).1.tokens = l.tokens ∧
      (parseIdentLoopF fuel l acc).1.line = l.line ∧
      l.position ≤ (parseIdentLoopF fuel l acc).1.position := by
  induction fuel with
  | zero => intro l acc; exact ⟨by trivial, by trivial, by trivial, by trivial, Nat.le_refl _⟩
  | succ n ih =>
    intro l acc
    simp only [parseIdentLoopF]
    by_cases hend : is_at_end l = true
    · simp only [hend, if_true]
      exact ⟨by trivial, by trivial, by trivial, by trivial, Nat.le_refl _⟩
    · simp only [hend, Bool.false_eq_true, if_false]
      cases hc : current l with
      | none => exact ⟨by trivial, by trivial, by trivial, by trivial, Nat.le_refl _⟩
      | some c =>
        by_cases hd : c.isAlphanum = true
        · simp only [hd, if_true]
          have h2 := ih (advance l).2 (acc ++ [c])
          have e5 : (advance l).2.position = l.position + 1 := rfl
          rw [e5] at h2
          exact ⟨h2.1, h2.2.1, h2.2.2.1, h2.2.2.2.1, by
            have h5 := h2.2.2.2.2
            omega⟩
        · simp only [hd, Bool.false_eq_true, if_false]
          exact ⟨by trivial, by trivial, by trivial, by trivial, Nat.le_refl _⟩

theorem parse_string_mono {l l2 : Lexer} (h : parse_string l = .ok l2) :
    l2.program = l.program ∧ l2.file = l.file ∧ l.position ≤ l2.position := by
  unfold parse_string at h
  split at h
  · exact Except.noConfusion h
  rename_i l1 buf hres
  have hm := parseStringLoopF_mono (byteLen l.program + 1) l [] l1 buf hres
  by_cases hq : current l1 = some '"'
  · rw [if_pos hq] at h
    simp only [Except.ok.injEq] at h
    subst h
    refine ⟨hm.1, hm.2.1, ?_⟩
    have h5 := hm.2.2.2.2
    have e5 : (push_token (advance l1).2 (.String ⟨buf⟩)).position = l1.position + 1 := rfl
    omega
  · rw [if_neg hq] at h
    exact Except.noConfusion h

theorem parse_number_mono {l l2 : Lexer} (h : parse_number l = some l2) :
    l2.program = l.program ∧ l2.file = l.file ∧ l.position ≤ l2.position := by
  unfold parse_number at h
  split at h
  · exact Option.noConfusion h
  rename_i c0 hp
  have hm := parseNumberLoopF_mono (byteLen l.program + 1) l [c0]
  split at h
  · rename_i n hu
    simp only [Option.some.injEq] at h
    subst h
    exact ⟨hm.1, hm.2.1, by
      have h5 := hm.2.2.2.2
      have e5 : (push_token (parseNumberLoopF (byteLen l.program + 1) l [c0]).1
        (.Int n)).position = (parseNumberLoopF (byteLen l.program + 1) l [c0]).1.position := rfl
      omega⟩
  · rename_i hu
    split at h
    · simp only [Option.some.injEq] at h
      subst h
      exact ⟨hm.1, hm.2.1, hm.2.2.2.2⟩
    · exact Option.noConfusion h

theorem parse_identifier_mono {l l2 : Lexer} (h : parse_identifier l = some l2) :
    l2.program = l.program ∧ l2.file = l.file ∧ l.position ≤ l2.position := by
  unfold parse_identifier at h
  split at h
  · exact Option.noConfusion h
  rename_i c0 hp
  dsimp only [] at h
  have hm := parseIdentLoopF_mono (byteLen l.program + 1) l [c0]
  simp only [Option.some.injEq] at h
  subst h
  exact ⟨hm.1, hm.2.1, hm.2.2.2.2⟩

theorem parse_token_mono {l l' : Lexer} (h : parse_token l = .ok l') :
    l'.program = l.program ∧ l'.file = l.file ∧ l.position + 1 ≤ l'.position := by
  unfold parse_token at h
  split at h
  · simp only [LexResult.ok.injEq] at h
    subst h
    exact ⟨rfl, rfl, Nat.le_refl _⟩
  · split at h
    all_goals try exact LexResult.noConfusion h
    all_goals try split at h
    all_goals try exact LexResult.noConfusion h
    all_goals simp only [LexResult.ok.injEq] at h
    all_goals subst h
    all_goals
      first
      | exact ⟨rfl, rfl, Nat.le_refl _⟩
      | exact ⟨(skip_comment_state ((advance l).2)).1, (skip_comment_state ((advance l).2)).2.1,
               (skip_comment_state ((advance l).2)).2.2.2.2⟩
      | (rename_i heq
         exact ⟨(parse_string_mono heq).1, (parse_string_mono heq).2.1,
                (parse_string_mono heq).2.2⟩)
      | (rename_i heq
         exact ⟨(parse_number_mono heq).1, (parse_number_mono heq).2.1,
                (parse_number_mono heq).2.2⟩)
      | (rename_i heq
         exact ⟨(parse_identifier_mono heq).1, (parse_identifier_mono heq).2.1,
                (parse_identifier_mono heq).2.2⟩)

/-! ## The driving loop: tail behaviour and fuel invariance -/

theorem tokenizeLoopF_past (fuel : Nat) :
    ∀ l : Lexer, byteLen l.program < USIZE → l.program.length ≤ l.position →
      tokenizeLoopF fuel l = .ok l.tokens := by
  induction fuel with
  | zero => intro l hU hp; rfl
  | succ n ih =>
    intro l hU hp
    simp only [tokenizeLoopF]
    by_cases hend : is_at_end l = true
    · simp only [hend, if_true]
    · rw [Bool.not_eq_true] at hend
      simp only [hend, Bool.false_eq_true, if_false]
      have hpos := atEnd_false_pos hend
      have hpU : l.position < USIZE := lt_of_lt_of_le hpos (le_of_lt hU)
      have hcur : nthChar l.program l.position = none := by
        unfold nthChar
        rw [if_neg (by omega)]
      have hpt : parse_token l = .ok (advance l).2 := by
        unfold parse_token
        rw [advance_fst l hpU, hcur]
      rw [hpt]
      exact ih (advance l).2 hU (by
        have e : (advance l).2.position = l.position + 1 := rfl
        have e2 : (advance l).2.program = l.program := rfl
        rw [e, e2]
        omega)

theorem tokenizeLoopF_fuel (f1 : Nat) :
    ∀ (l : Lexer) (f2 : Nat),
      byteLen l.program ≤ l.position + f1 → byteLen l.program ≤ l.position + f2 →
      tokenizeLoopF f1 l = tokenizeLoopF f2 l := by
  induction f1 with
  | zero =>
    intro l f2 h1 h2
    have hend : is_at_end l = true := by
      simp only [is_at_end, decide_eq_true_eq]
      omega
    cases f2 with
    | zero => rfl
    | succ m =>
      simp only [tokenizeLoopF, hend, if_true]
      try rfl
  | succ n ih =>
    intro l f2 h1 h2
    by_cases hend : is_at_end l = true
    · cases f2 with
      | zero => simp only [tokenizeLoopF, hend, if_true]
      | succ m => simp only [tokenizeLoopF, hend, if_true]
    · rw [Bool.not_eq_true] at hend
      have hpos := atEnd_false_pos hend
      cases f2 with
      | zero => omega
      | succ m =>
        simp only [tokenizeLoopF, hend, Bool.false_eq_true, if_false]
        cases hres : parse_token l with
        | ok l1 =>
          have hm := parse_token_mono hres
          apply ih
          · rw [hm.1]
            have h5 := hm.2.2
            omega
          · rw [hm.1]
            have h5 := hm.2.2
            omega
        | err e => rfl
        | panicked => rfl

theorem tokenizeLoopF_step {l l1 : Lexer} (f : Nat) (hend : is_at_end l = false)
    (h : parse_token l = .ok l1) : tokenizeLoopF (f + 1) l = tokenizeLoopF f l1 := by
  simp only [tokenizeLoopF, hend, Bool.false_eq_true, if_false, h]

theorem tokenizeLoopF_step_err {l : Lexer} {e : FlushError} (f : Nat)
    (hend : is_at_end l = false) (h : parse_token l = .err e) :
    tokenizeLoopF (f + 1) l = .err e := by
  simp only [tokenizeLoopF, hend, Bool.false_eq_true, if_false, h]

theorem tokenizeLoopF_step_panic {l : Lexer} (f : Nat)
    (hend : is_at_end l = false) (h : parse_token l = .panicked) :
    tokenizeLoopF (f + 1) l = .panicked := by
  simp only [tokenizeLoopF, hend, Bool.false_eq_true, if_false, h]

/-! ## Evaluation of `parse_token` by dispatched character class -/

theorem parse_token_eval {l : Lexer} {c : Char} (hU : l.position < USIZE)
    (hc : current l = some c) :
    parse_token l =
      match dispatch c with
      | .push k => .ok (push_token (advance l).2 k)
      | .string =>
        match parse_string (advance l).2 with
        | .error e => .err e
        | .ok l2 => .ok l2
      | .comment => .ok (skip_comment (advance l).2)
      | .newline => .ok { (advance l).2 with line := (advance l).2.line + 1 }
      | .number =>
        match parse_number (advance l).2 with
        | some l2 => .ok l2
        | none => .panicked
      | .identifier =>
        match parse_identifier (advance l).2 with
        | some l2 => .ok l2
        | none => .panicked
      | .ignore => .ok (advance l).2 := by
  unfold parse_token
  rw [advance_fst l hU, show nthChar l.program l.position = some c from hc]

theorem parse_token_none {l : Lexer} (hU : l.position < USIZE)
    (hc : current l = none) : parse_token l = .ok (advance l).2 := by
  unfold parse_token
  rw [advance_fst l hU, show nthChar l.program l.position = none from hc]

theorem parse_token_quote {l : Lexer} (hU : l.position < USIZE)
    (hc : current l = some '"') :
    parse_token l =
      match parse_string (advance l).2 with
      | .error e => .err e
      | .ok l2 => .ok l2 := by
  rw [parse_token_eval hU hc]
  rfl

theorem parse_token_hash {l : Lexer} (hU : l.position < USIZE)
    (hc : current l = some '#') :
    parse_token l = .ok (skip_comment (advance l).2) := by
  rw [parse_token_eval hU hc]
  rfl

theorem parse_token_nl {l : Lexer} (hU : l.position < USIZE)
    (hc : current l = some '\n') :
    parse_token l = .ok { (advance l).2 with line := (advance l).2.line + 1 } := by
  rw [parse_token_eval hU hc]
  rfl

theorem parse_token_ignore {l : Lexer} {c : Char} (hU : l.position < USIZE)
    (hc : current l = some c) (hd : dispatch c = .ignore) :
    parse_token l = .ok (advance l).2 := by
  rw [parse_token_eval hU hc, hd]

theorem parse_token_number {l : Lexer} {c : Char} (hU : l.position < USIZE)
    (hc : current l = some c) (hd : dispatch c = .number) :
    parse_token l =
      match parse_number (advance l).2 with
      | some l2 => .ok l2
      | none => .panicked := by
  rw [parse_token_eval hU hc, hd]

theorem dispatch_digit {c : Char} (hc : c.isDigit = true) : dispatch c = .number := by
  have hne : ∀ d : Char, Char.isDigit d = false → c ≠ d := fun d hd he => by
    rw [he, hd] at hc
    exact Bool.noConfusion hc
  unfold dispatch
  rw [if_neg (hne '(' (by decide)), if_neg (hne ')' (by decide)),
      if_neg (hne '\x7b' (by decide)), if_neg (hne '\x7d' (by decide)),
      if_neg (hne '[' (by decide)), if_neg (hne ']' (by decide)),
      if_neg (hne ':' (by decide)), if_neg (hne ';' (by decide)),
      if_neg (hne ',' (by decide)),
      if_neg (by rintro (h | h | h | h | h | h | h) <;> exact hne _ (by decide) h),
      if_neg (hne '"' (by decide)), if_neg (hne '#' (by decide)),
      if_neg (hne '\n' (by decide)), if_pos hc]

theorem dispatch_ws {c : Char} (h : isRustWhitespace c = true) (hn : c ≠ '\n') :
    dispatch c = .ignore := by
  simp only [isRustWhitespace, List.mem_cons, List.not_mem_nil, or_false,
    decide_eq_true_eq] at h
  rcases h with rfl | rfl | rfl | rfl | rfl | rfl | rfl | rfl | rfl | rfl | rfl | rfl |
    rfl | rfl | rfl | rfl | rfl | rfl | rfl | rfl | rfl | rfl | rfl | rfl | rfl
  all_goals first
    | exact absurd rfl hn
    | decide

theorem drop_at_offset {l : Lexer} {pre post : List Char}
    (h : l.program.drop l.position = pre ++ post) :
    l.program.drop (l.position + pre.length) = post := by
  have h2 : List.drop pre.length (List.drop l.position l.program) = post := by
    rw [h, List.drop_left]
  rw [← h2, List.drop_drop]

/-! ## Behaviour of the string sub-scanner -/

theorem parseStringLoopF_walk (body : List Char) :
    ∀ (f : Nat) (l : Lexer) (buf tail : List Char),
      l.program.drop l.position = body ++ tail →
      (∀ c ∈ body, c ≠ '"' ∧ c ≠ '\n') →
      parseStringLoopF (body.length + f) l buf =
        parseStringLoopF f { l with position := l.position + body.length } (buf ++ body) := by
  induction body with
  | nil =>
    intro f l buf tail hdrop hb
    simp only [List.length_nil, Nat.zero_add, Nat.add_zero, List.append_nil]
  | cons c rest ih =>
    intro f l buf tail hdrop hb
    rw [List.cons_append] at hdrop
    have hcur : current l = some c := current_of_drop hdrop
    have hend : is_at_end l = false := not_atEnd_of_drop hdrop
    have hcq : c ≠ '"' := (hb c (by simp)).1
    have hcn : c ≠ '\n' := (hb c (by simp)).2
    have hfuel : (c :: rest).length + f = (rest.length + f) + 1 := by
      simp only [List.length_cons]
      omega
    rw [hfuel]
    simp only [parseStringLoopF, hend, Bool.false_eq_true, if_false, hcur]
    rw [if_neg (by simp [hcq]), if_neg hcn]
    have hdrop2 : (advance l).2.program.drop (advance l).2.position = rest ++ tail :=
      drop_advance hdrop
    rw [ih f (advance l).2 (buf ++ [c]) tail hdrop2 (fun d hd => hb d (by simp [hd]))]
    have e1 : (advance l).2.position = l.position + 1 := rfl
    have e2 : ({ (advance l).2 with position := (advance l).2.position + rest.length } : Lexer) =
        { l with position := l.position + (c :: rest).length } := by
      simp only [e1, List.length_cons]
      show ({ l with position := l.position + 1 + rest.length } : Lexer) = _
      congr 1
      omega
    rw [e2]
    congr 1
    simp

theorem parseStringLoopF_stop_quote (f : Nat) (l : Lexer) (buf tail : List Char)
    (hdrop : l.program.drop l.position = '"' :: tail) :
    parseStringLoopF f l buf = .ok (l, buf) := by
  cases f with
  | zero => rfl
  | succ n =>
    have hcur : current l = some '"' := current_of_drop hdrop
    simp only [parseStringLoopF, hcur]
    by_cases hend : is_at_end l = true
    · rw [if_pos hend]
    · rw [if_neg hend, if_pos trivial]

theorem parseStringLoopF_stop_end (f : Nat) (l : Lexer) (buf : List Char)
    (hdrop : l.program.drop l.position = []) :
    parseStringLoopF f l buf = .ok (l, buf) := by
  cases f with
  | zero => rfl
  | succ n =>
    have hlen : l.program.length ≤ l.position := by
      have h1 := congrArg List.length hdrop
      rw [List.length_drop] at h1
      simp only [List.length_nil] at h1
      omega
    have hcur : current l = none := current_none_of_ge hlen
    simp only [parseStringLoopF, hcur]
    by_cases hend : is_at_end l = true
    · rw [if_pos hend]
    · rw [if_neg hend, if_neg (by simp)]

theorem parseStringLoopF_stop_newline (f : Nat) (l : Lexer) (buf tail : List Char)
    (hdrop : l.program.drop l.position = '\n' :: tail) :
    parseStringLoopF (f + 1) l buf =
      .error { file := l.file, line := l.line, message := "Ilegal newline in string",
               hint := some "use \\n instead" } := by
  have hcur : current l = some '\n' := current_of_drop hdrop
  have hend : is_at_end l = false := not_atEnd_of_drop hdrop
  simp only [parseStringLoopF, hend, Bool.false_eq_true, if_false, hcur]
  rw [if_neg (by simp), if_pos trivial]

theorem parse_string_eval (l l1 : Lexer) (buf : List Char)
    (h : parseStringLoopF (byteLen l.program + 1) l [] = .ok (l1, buf)) :
    parse_string l =
      if current l1 = some '"' then
        .ok (push_token (advance l1).2 (.String ⟨buf⟩))
      else
        .error { file := l1.file, line := l1.line,
                 message := "Unterminated string", hint := none } := by
  unfold parse_string
  rw [h]

theorem parse_string_eval_err (l : Lexer) (e : FlushError)
    (h : parseStringLoopF (byteLen l.program + 1) l [] = .error e) :
    parse_string l = .error e := by
  unfold parse_string
  rw [h]

theorem parse_string_success (l : Lexer) (body tail : List Char)
    (hdrop : l.program.drop l.position = body ++ '"' :: tail)
    (hb : ∀ c ∈ body, c ≠ '"' ∧ c ≠ '\n') :
    parse_string l = .ok (push_token { l with position := l.position + body.length + 1 }
      (.String ⟨body⟩)) := by
  have h1 := congrArg List.length hdrop
  rw [List.length_drop] at h1
  simp only [List.length_append, List.length_cons] at h1
  have h2 := length_le_byteLen l.program
  have hdrop2 : l.program.drop (l.position + body.length) = '"' :: tail :=
    drop_at_offset hdrop
  have hloop : parseStringLoopF (byteLen l.program + 1) l [] =
      .ok ({ l with position := l.position + body.length }, [] ++ body) := by
    rw [show byteLen l.program + 1 = body.length + (byteLen l.program + 1 - body.length) from
      by omega]
    rw [parseStringLoopF_walk body _ l [] ('"' :: tail) hdrop hb]
    exact parseStringLoopF_stop_quote _ _ _ tail hdrop2
  rw [parse_string_eval _ _ _ hloop, if_pos (current_of_drop hdrop2)]
  simp only [List.nil_append]
  rfl

theorem parse_string_unterminated (l : Lexer) (body : List Char)
    (hdrop : l.program.drop l.position = body)
    (hb : ∀ c ∈ body, c ≠ '"' ∧ c ≠ '\n') :
    parse_string l = .error { file := l.file, line := l.line,
                              message := "Unterminated string", hint := none } := by
  have h1 := congrArg List.length hdrop
  rw [List.length_drop] at h1
  have h2 := length_le_byteLen l.program
  have hdrop' : l.program.drop l.position = body ++ [] := by
    rw [hdrop, List.append_nil]
  have hdrop2 : l.program.drop (l.position + body.length) = [] :=
    drop_at_offset hdrop'
  have hloop : parseStringLoopF (byteLen l.program + 1) l [] =
      .ok ({ l with position := l.position + body.length }, [] ++ body) := by
    rw [show byteLen l.program + 1 = body.length + (byteLen l.program + 1 - body.length) from
      by omega]
    rw [parseStringLoopF_walk body _ l [] [] hdrop' hb]
    exact parseStringLoopF_stop_end _ _ _ hdrop2
  rw [parse_string_eval _ _ _ hloop]
  rw [if_neg (by
    rw [show current { l with position := l.position + body.length } =
      nthChar l.program (l.position + body.length) from rfl]
    rw [nthChar_eq_get?]
    rw [List.get?_eq_none.mpr (by
      have h3 := congrArg List.length hdrop2
      rw [List.length_drop] at h3
      simp only [List.length_nil] at h3
      omega)]
    simp)]

theorem parse_string_newline (l : Lexer) (body tail : List Char)
    (hdrop : l.program.drop l.position = body ++ '\n' :: tail)
    (hb : ∀ c ∈ body, c ≠ '"' ∧ c ≠ '\n') :
    parse_string l = .error { file := l.file, line := l.line,
                              message := "Ilegal newline in string",
                              hint := some "use \\n instead" } := by
  have h1 := congrArg List.length hdrop
  rw [List.length_drop] at h1
  simp only [List.length_append, List.length_cons] at h1
  have h2 := length_le_byteLen l.program
  have hdrop2 : l.program.drop (l.position + body.length) = '\n' :: tail :=
    drop_at_offset hdrop
  have hloop : parseStringLoopF (byteLen l.program + 1) l [] =
      .error { file := l.file, line := l.line,
               message := "Ilegal newline in string", hint := some "use \\n instead" } := by
    rw [show byteLen l.program + 1 = body.length + ((byteLen l.program - body.length) + 1) from
      by omega]
    rw [parseStringLoopF_walk body _ l [] ('\n' :: tail) hdrop hb]
    exact parseStringLoopF_stop_newline _ _ ([] ++ body) tail hdrop2
  exact parse_string_eval_err _ _ hloop

/-! ## Claims about string literals -/

/-- Claim C2: round-trip of string literals.  For every body free of `'"'`
and raw newlines, tokenizing `'"' ++ body ++ '"'` succeeds and emits exactly
one token, `String(body)`, verbatim and with both quotes excluded. -/
theorem string_literal_roundtrip (body : List Char) (file : String)
    (hq : '"' ∉ body) (hn : '\n' ∉ body)
    (hU : byteLen ('"' :: (body ++ ['"'])) < USIZE) :
    tokenizeSource ('"' :: (body ++ ['"'])) file =
      .ok [{ line := 1, kind := .String ⟨body⟩ }] := by
  have hb : ∀ c ∈ body, c ≠ '"' ∧ c ≠ '\n' :=
    fun c hc => ⟨fun e => hq (e ▸ hc), fun e => hn (e ▸ hc)⟩
  have hd0 : (Lexer.new ('"' :: (body ++ ['"'])) file).program.drop
      (Lexer.new ('"' :: (body ++ ['"'])) file).position = '"' :: (body ++ ['"']) := rfl
  have hc0 : current (Lexer.new ('"' :: (body ++ ['"'])) file) = some '"' :=
    current_of_drop hd0
  have hend0 : is_at_end (Lexer.new ('"' :: (body ++ ['"'])) file) = false :=
    not_atEnd_of_drop hd0
  have hd1 : (advance (Lexer.new ('"' :: (body ++ ['"'])) file)).2.program.drop
      (advance (Lexer.new ('"' :: (body ++ ['"'])) file)).2.position = body ++ '"' :: [] := rfl
  have hps := parse_string_success
    (advance (Lexer.new ('"' :: (body ++ ['"'])) file)).2 body [] hd1 hb
  have hpt : parse_token (Lexer.new ('"' :: (body ++ ['"'])) file) =
      .ok (push_token
        { (advance (Lexer.new ('"' :: (body ++ ['"'])) file)).2 with
          position := (advance (Lexer.new ('"' :: (body ++ ['"'])) file)).2.position +
            body.length + 1 }
        (.String ⟨body⟩)) := by
    rw [parse_token_quote USIZE_pos hc0, hps]
  calc tokenizeSource ('"' :: (body ++ ['"'])) file
      = tokenizeLoopF (byteLen ('"' :: (body ++ ['"'])) + 1)
          (Lexer.new ('"' :: (body ++ ['"'])) file) := rfl
    _ = tokenizeLoopF (byteLen ('"' :: (body ++ ['"'])))
          (push_token
            { (advance (Lexer.new ('"' :: (body ++ ['"'])) file)).2 with
              position := (advance (Lexer.new ('"' :: (body ++ ['"'])) file)).2.position +
                body.length + 1 }
            (.String ⟨body⟩)) := tokenizeLoopF_step _ hend0 hpt
    _ = .ok [{ line := 1, kind := .String ⟨body⟩ }] := by
        rw [tokenizeLoopF_past _ _ hU (by
          show ('"' :: (body ++ ['"'])).length ≤ 0 + 1 + body.length + 1
          simp only [List.length_cons, List.length_append, List.length_singleton,
            List.length_nil]
          omega)]
        rfl

/-- Claim C3: a string literal opened and never closed, with no raw newline
before the end of input, makes tokenize fail with the "Unterminated string"
error carrying the file label, the current line and no hint — and no tokens
are returned. -/
theorem unterminated_string_fails (body : List Char) (file : String)
    (hq : '"' ∉ body) (hn : '\n' ∉ body)
    (hU : byteLen ('"' :: body) < USIZE) :
    tokenizeSource ('"' :: body) file =
      .err { file := file, line := 1, message := "Unterminated string", hint := none } := by
  have hb : ∀ c ∈ body, c ≠ '"' ∧ c ≠ '\n' :=
    fun c hc => ⟨fun e => hq (e ▸ hc), fun e => hn (e ▸ hc)⟩
  have hd0 : (Lexer.new ('"' :: body) file).program.drop
      (Lexer.new ('"' :: body) file).position = '"' :: body := rfl
  have hc0 : current (Lexer.new ('"' :: body) file) = some '"' := current_of_drop hd0
  have hend0 : is_at_end (Lexer.new ('"' :: body) file) = false := not_atEnd_of_drop hd0
  have hd1 : (advance (Lexer.new ('"' :: body) file)).2.program.drop
      (advance (Lexer.new ('"' :: body) file)).2.position = body := rfl
  have hps := parse_string_unterminated (advance (Lexer.new ('"' :: body) file)).2 body hd1 hb
  have hpt : parse_token (Lexer.new ('"' :: body) file) =
      .err { file := file, line := 1, message := "Unterminated string", hint := none } := by
    rw [parse_token_quote USIZE_pos hc0, hps]
    rfl
  calc tokenizeSource ('"' :: body) file
      = tokenizeLoopF (byteLen ('"' :: body) + 1) (Lexer.new ('"' :: body) file) := rfl
    _ = .err { file := file, line := 1, message := "Unterminated string", hint := none } :=
        tokenizeLoopF_step_err _ hend0 hpt

/-- Consuming a run of `k` leading newlines: each one advances the cursor by
one and bumps the line counter by one, emitting nothing. -/
theorem tokenizeLoopF_newlines (k : Nat) :
    ∀ (f : Nat) (l : Lexer) (tail : List Char),
      byteLen l.program < USIZE →
      l.program.drop l.position = List.replicate k '\n' ++ tail →
      tokenizeLoopF (k + f) l =
        tokenizeLoopF f { l with position := l.position + k, line := l.line + k } := by
  induction k with
  | zero =>
    intro f l tail hU hdrop
    simp only [Nat.zero_add, Nat.add_zero]
  | succ k ih =>
    intro f l tail hU hdrop
    rw [List.replicate_succ, List.cons_append] at hdrop
    have hc : current l = some '\n' := current_of_drop hdrop
    have hend : is_at_end l = false := not_atEnd_of_drop hdrop
    have hpU : l.position < USIZE :=
      lt_of_lt_of_le (lt_of_lt_of_le (pos_lt_length_of_drop hdrop)
        (length_le_byteLen _)) (le_of_lt hU)
    have hpt := parse_token_nl hpU hc
    have hL1 : ({ (advance l).2 with line := (advance l).2.line + 1 } : Lexer) =
        { l with position := l.position + 1, line := l.line + 1 } := rfl
    rw [hL1] at hpt
    have hstep : tokenizeLoopF (k + 1 + f) l =
        tokenizeLoopF (k + f) { l with position := l.position + 1, line := l.line + 1 } := by
      rw [show k + 1 + f = (k + f) + 1 from by omega]
      exact tokenizeLoopF_step _ hend hpt
    rw [hstep]
    rw [ih f { l with position := l.position + 1, line := l.line + 1 } tail hU
      (drop_advance hdrop)]
    congr 1
    show ({ l with position := l.position + 1 + k, line := l.line + 1 + k } : Lexer) = _
    congr 1
    · omega
    · omega

/-- Claim C4 counterexample: the in-string newline error message of the code
is the literal (misspelled) text `Ilegal newline in string`, not the message
`illegal newline in string` that the claim states. -/
theorem newline_error_message_spelling :
    tokenizeSource ['"', 'a', '\n'] "f" =
      .err { file := "f", line := 1, message := "Ilegal newline in string",
             hint := some "use \\n instead" } ∧
    "Ilegal newline in string" ≠ "illegal newline in string" := by
  constructor
  · decide
  · decide

/-- From a state whose remaining input is an opened string literal holding a
raw newline, one more `parse_token` aborts with the illegal-newline error at
the state's current line. -/
theorem tokenize_err_string_at (l : Lexer) (f : Nat) (body tail : List Char)
    (hU : byteLen l.program < USIZE)
    (hdrop : l.program.drop l.position = '"' :: (body ++ '\n' :: tail))
    (hb : ∀ c ∈ body, c ≠ '"' ∧ c ≠ '\n') :
    tokenizeLoopF (f + 1) l =
      .err { file := l.file, line := l.line, message := "Ilegal newline in string",
             hint := some "use \\n instead" } := by
  have hc := current_of_drop hdrop
  have hend := not_atEnd_of_drop hdrop
  have hpU : l.position < USIZE :=
    lt_of_lt_of_le (lt_of_lt_of_le (pos_lt_length_of_drop hdrop)
      (length_le_byteLen _)) (le_of_lt hU)
  have hps := parse_string_newline (advance l).2 body tail (drop_advance hdrop) hb
  have hpt := parse_token_quote hpU hc
  rw [hps] at hpt
  exact tokenizeLoopF_step_err _ hend (by rw [hpt]; rfl)

/-- Claim C4 (amended): a raw newline inside a string literal aborts
tokenization immediately with a lexical error whose message is the code's
literal text "Ilegal newline in string", reported at the opening quote's
line (the line counter has not been incremented for the offending newline),
and carrying the hint suggesting an escape sequence.  The input below opens
the string after `k` leading newlines, so the opening quote sits on line
`k + 1`. -/
theorem newline_in_string_fails (k : Nat) (body tail : List Char) (file : String)
    (hq : '"' ∉ body) (hn : '\n' ∉ body)
    (hU : byteLen (List.replicate k '\n' ++ '"' :: (body ++ '\n' :: tail)) < USIZE) :
    tokenizeSource (List.replicate k '\n' ++ '"' :: (body ++ '\n' :: tail)) file =
      .err { file := file, line := k + 1, message := "Ilegal newline in string",
             hint := some "use \\n instead" } := by
  have hb : ∀ c ∈ body, c ≠ '"' ∧ c ≠ '\n' :=
    fun c hc => ⟨fun e => hq (e ▸ hc), fun e => hn (e ▸ hc)⟩
  set P := List.replicate k '\n' ++ '"' :: (body ++ '\n' :: tail) with hP
  have hlen : k ≤ byteLen P := by
    have h1 := length_le_byteLen P
    rw [hP] at h1
    simp only [List.length_append, List.length_replicate, List.length_cons] at h1
    rw [hP]
    omega
  have hd0 : (Lexer.new P file).program.drop (Lexer.new P file).position =
      List.replicate k '\n' ++ ('"' :: (body ++ '\n' :: tail)) := hP
  have hpre := tokenizeLoopF_newlines k (byteLen P + 1 - k) (Lexer.new P file)
    ('"' :: (body ++ '\n' :: tail)) hU hd0
  rw [show k + (byteLen P + 1 - k) = byteLen P + 1 from by omega] at hpre
  have hdk0 := drop_at_offset (l := Lexer.new P file) hd0
  rw [List.length_replicate] at hdk0
  have herr := tokenize_err_string_at
    { Lexer.new P file with
        position := (Lexer.new P file).position + k
        line := (Lexer.new P file).line + k }
    (byteLen P - k) body tail hU hdk0 hb
  show tokenizeLoopF (byteLen P + 1) (Lexer.new P file) = _
  rw [hpre]
  rw [show byteLen P + 1 - k = (byteLen P - k) + 1 from by omega]
  rw [herr]
  show (LexResult.err { file := file, line := 1 + k,
                        message := "Ilegal newline in string",
                        hint := some "use \\n instead" } : LexResult (List Token)) = _
  rw [Nat.add_comm 1 k]

/-! ## Behaviour of the number sub-scanner -/

theorem utf8Size_digit_dot {c : Char} (h : c = '.' ∨ c.isDigit = true) :
    c.utf8Size = 1 := by
  rcases h with rfl | h
  · rfl
  · simp [Char.isDigit] at h
    rw [Char.utf8Size, if_pos]
    exact UInt32.le_trans h.2 (by decide)

theorem byteLen_ascii (s : List Char) (h : ∀ c ∈ s, c = '.' ∨ c.isDigit = true) :
    byteLen s = s.length := by
  unfold byteLen
  induction s with
  | nil => rfl
  | cons a t ih =>
    simp only [List.map_cons, List.sum_cons, List.length_cons]
    rw [utf8Size_digit_dot (h a (by simp)), ih (fun c hc => h c (by simp [hc]))]
    omega

theorem parseNumberLoopF_walk (rest : List Char) :
    ∀ (f : Nat) (l : Lexer) (raw : List Char),
      l.program.drop l.position = rest →
      (∀ c ∈ rest, c = '.' ∨ c.isDigit = true) →
      byteLen l.program = l.program.length →
      parseNumberLoopF (rest.length + f) l raw =
        ({ l with position := l.position + rest.length }, raw ++ rest) := by
  induction rest with
  | nil =>
    intro f l raw hdrop hall hascii
    simp only [List.length_nil, Nat.zero_add, Nat.add_zero, List.append_nil]
    have hlen : l.program.length ≤ l.position := by
      have h1 := congrArg List.length hdrop
      rw [List.length_drop] at h1
      simp only [List.length_nil] at h1
      omega
    have hend : is_at_end l = true := by
      simp only [is_at_end, decide_eq_true_eq]
      omega
    cases f with
    | zero => rfl
    | succ n =>
      simp only [parseNumberLoopF, hend, if_true]
  | cons c cs ih =>
    intro f l raw hdrop hall hascii
    have hcur : current l = some c := current_of_drop hdrop
    have hend : is_at_end l = false := not_atEnd_of_drop hdrop
    rw [show (c :: cs).length + f = (cs.length + f) + 1 from by
      simp only [List.length_cons]; omega]
    simp only [parseNumberLoopF, hend, Bool.false_eq_true, if_false, hcur]
    rw [if_pos (hall c (by simp))]
    rw [ih f (advance l).2 (raw ++ [c]) (drop_advance hdrop)
      (fun d hd => hall d (by simp [hd])) hascii]
    have e1 : (advance l).2.position = l.position + 1 := rfl
    refine congrArg₂ Prod.mk ?_ ?_
    · show ({ l with position := l.position + 1 + cs.length } : Lexer) = _
      congr 1
      simp only [List.length_cons]
      omega
    · rw [List.append_assoc]
      rfl

theorem parseU32_eval (c : Char) (t : List Char) (hcp : c ≠ '+') :
    parseU32 (c :: t) = parseU32digits (c :: t) := by
  unfold parseU32
  split
  · rename_i r heq
    injection heq with h1 h2
    exact absurd h1 hcp
  · rfl

theorem parseU32_digits_some (c : Char) (t : List Char) (hc : c.isDigit = true)
    (hall : ∀ d ∈ t, d.isDigit = true) (hlt : digitsToNat (c :: t) < 2 ^ 32) :
    parseU32 (c :: t) = some (digitsToNat (c :: t)) := by
  have hcp : c ≠ '+' := fun e => by rw [e] at hc; exact Bool.noConfusion hc
  rw [parseU32_eval c t hcp]
  unfold parseU32digits
  rw [if_pos]
  refine ⟨by simp, ?_, hlt⟩
  rw [List.all_eq_true]
  intro d hd
  rcases List.mem_cons.mp hd with rfl | hd
  · exact hc
  · exact hall d hd

theorem parse_number_eval (l : Lexer) (c0 : Char) (rest : List Char)
    (hprev : previous l = some c0)
    (hdrop : l.program.drop l.position = rest)
    (hall : ∀ c ∈ rest, c = '.' ∨ c.isDigit = true)
    (hascii : byteLen l.program = l.program.length) :
    parse_number l =
      match parseU32 (c0 :: rest) with
      | some n =>
        some (push_token { l with position := l.position + rest.length } (.Int n))
      | none =>
        if f32Accepts (c0 :: rest) then
          some (push_token { l with position := l.position + rest.length }
            (.Float ⟨c0 :: rest⟩))
        else none := by
  have hrlen : rest.length ≤ byteLen l.program := by
    have h1 := congrArg List.length hdrop
    rw [List.length_drop] at h1
    omega
  have hloop : parseNumberLoopF (byteLen l.program + 1) l [c0] =
      ({ l with position := l.position + rest.length }, c0 :: rest) := by
    rw [show byteLen l.program + 1 = rest.length + (byteLen l.program + 1 - rest.length)
      from by omega]
    rw [parseNumberLoopF_walk rest _ l [c0] hdrop hall hascii]
    rfl
  unfold parse_number
  simp only [hprev]
  rw [hloop]

theorem parse_number_eval_int (l : Lexer) (c0 : Char) (rest : List Char) (n : Nat)
    (hprev : previous l = some c0)
    (hdrop : l.program.drop l.position = rest)
    (hall : ∀ c ∈ rest, c = '.' ∨ c.isDigit = true)
    (hascii : byteLen l.program = l.program.length)
    (hu : parseU32 (c0 :: rest) = some n) :
    parse_number l =
      some (push_token { l with position := l.position + rest.length } (.Int n)) := by
  rw [parse_number_eval l c0 rest hprev hdrop hall hascii, hu]

theorem parse_number_eval_float (l : Lexer) (c0 : Char) (rest : List Char)
    (hprev : previous l = some c0)
    (hdrop : l.program.drop l.position = rest)
    (hall : ∀ c ∈ rest, c = '.' ∨ c.isDigit = true)
    (hascii : byteLen l.program = l.program.length)
    (hu : parseU32 (c0 :: rest) = none) (hf : f32Accepts (c0 :: rest) = true) :
    parse_number l =
      some (push_token { l with position := l.position + rest.length }
        (.Float ⟨c0 :: rest⟩)) := by
  rw [parse_number_eval l c0 rest hprev hdrop hall hascii, hu]
  rw [if_pos hf]

theorem parse_number_eval_panic (l : Lexer) (c0 : Char) (rest : List Char)
    (hprev : previous l = some c0)
    (hdrop : l.program.drop l.position = rest)
    (hall : ∀ c ∈ rest, c = '.' ∨ c.isDigit = true)
    (hascii : byteLen l.program = l.program.length)
    (hu : parseU32 (c0 :: rest) = none) (hf : f32Accepts (c0 :: rest) = false) :
    parse_number l = none := by
  rw [parse_number_eval l c0 rest hprev hdrop hall hascii, hu]
  rw [if_neg (by rw [hf]; exact Bool.noConfusion)]

/-! ## The float grammar on lexemes of the number sub-scanner -/

theorem takeWhile_mem (p : Char → Bool) :
    ∀ (l : List Char) (c : Char), c ∈ l.takeWhile p → p c = true := by
  intro l
  induction l with
  | nil => intro c h; simp at h
  | cons a t ih =>
    intro c h
    rw [List.takeWhile_cons] at h
    by_cases hp : p a = true
    · rw [if_pos hp] at h
      rcases List.mem_cons.mp h with rfl | h2
      · exact hp
      · exact ih c h2
    · rw [if_neg hp] at h
      simp at h

theorem dropWhile_mem (p : Char → Bool) :
    ∀ (l : List Char) (c : Char), c ∈ l.dropWhile p → c ∈ l := by
  intro l
  induction l with
  | nil => intro c h; simp at h
  | cons a t ih =>
    intro c h
    rw [List.dropWhile_cons] at h
    by_cases hp : p a = true
    · rw [if_pos hp] at h
      exact List.mem_cons.mpr (Or.inr (ih c h))
    · rw [if_neg hp] at h
      exact h

theorem dropWhile_head_not (p : Char → Bool) :
    ∀ (l : List Char) (x : Char) (xs : List Char),
      l.dropWhile p = x :: xs → p x = false := by
  intro l
  induction l with
  | nil => intro x xs h; simp at h
  | cons a t ih =>
    intro x xs h
    rw [List.dropWhile_cons] at h
    by_cases hp : p a = true
    · rw [if_pos hp] at h
      exact ih x xs h
    · rw [if_neg hp] at h
      injection h with h1 h2
      subst h1
      cases hpa : p a
      · rfl
      · exact absurd hpa hp

theorem count_dot_takeWhile (l : List Char) :
    (l.takeWhile Char.isDigit).count '.' = 0 := by
  rw [List.count_eq_zero]
  intro h
  exact absurd (takeWhile_mem Char.isDigit l '.' h) (by decide)

theorem count_split_digits (l : List Char) :
    l.count '.' = (l.dropWhile Char.isDigit).count '.' := by
  conv_lhs => rw [← List.takeWhile_append_dropWhile (p := Char.isDigit) (l := l)]
  rw [List.count_append, count_dot_takeWhile]
  omega

theorem toLower_digit {c : Char} (hc : c.isDigit = true) : c.toLower = c := by
  simp only [Char.isDigit, Bool.and_eq_true, decide_eq_true_eq] at hc
  unfold Char.toLower
  rw [if_neg]
  intro hcond
  have h1 : (65 : Nat) ≤ c.toNat := hcond.1
  have h2 : c.toNat ≤ 57 := hc.2
  omega

theorem stripSign_not_sign (c : Char) (t : List Char) (h1 : c ≠ '+') (h2 : c ≠ '-') :
    stripSign (c :: t) = c :: t := by
  unfold stripSign
  split
  · rename_i heq
    injection heq with ha hb
    exact absurd ha h1
  · rename_i heq
    injection heq with ha hb
    exact absurd ha h2
  · rfl

/-- On a lexeme the number sub-scanner can produce — a digit followed by
digits and dots — the float grammar accepts exactly when the lexeme holds at
most one dot. -/
theorem f32Accepts_digit_lexeme (c : Char) (t : List Char) (hc : c.isDigit = true)
    (hall : ∀ d ∈ c :: t, d = '.' ∨ d.isDigit = true) :
    (f32Accepts (c :: t) = true ↔ (c :: t).count '.' ≤ 1) := by
  have hdot : ∀ x, x ∈ c :: t → Char.isDigit x = false → x = '.' := by
    intro x hx hxd
    rcases hall x hx with h | h
    · exact h
    · rw [h] at hxd
      exact Bool.noConfusion hxd
  have hcp : c ≠ '+' := fun e => by rw [e] at hc; exact Bool.noConfusion hc
  have hcm : c ≠ '-' := fun e => by rw [e] at hc; exact Bool.noConfusion hc
  have hstrip := stripSign_not_sign c t hcp hcm
  have hlownot : ¬((stripSign (c :: t)).map Char.toLower = "inf".toList ∨
      (stripSign (c :: t)).map Char.toLower = "infinity".toList ∨
      (stripSign (c :: t)).map Char.toLower = "nan".toList) := by
    rw [hstrip]
    simp only [List.map_cons]
    rw [toLower_digit hc]
    have hci : c ≠ 'i' := fun e => by rw [e] at hc; exact Bool.noConfusion hc
    have hcn : c ≠ 'n' := fun e => by rw [e] at hc; exact Bool.noConfusion hc
    rintro (h | h | h) <;>
      (injection h with hh _
       first
       | exact hci hh
       | exact hcn hh)
  have hne : ((c :: t).takeWhile Char.isDigit).isEmpty = false := by
    rw [List.takeWhile_cons, if_pos hc]
    rfl
  unfold f32Accepts
  rw [if_neg hlownot, hstrip]
  rw [count_split_digits]
  cases hr1 : (c :: t).dropWhile Char.isDigit with
  | nil =>
    have hmant : f32Mantissa (c :: t) = some [] := by
      unfold f32Mantissa
      rw [hr1]
      simp [hne]
    rw [hmant]
    simp [f32ExpTail]
  | cons x r2 =>
    have hxmem : x ∈ (c :: t).dropWhile Char.isDigit := by
      rw [hr1]
      exact List.mem_cons_self x r2
    have hx : x = '.' :=
      hdot x (dropWhile_mem Char.isDigit (c :: t) x hxmem)
        (dropWhile_head_not Char.isDigit (c :: t) x r2 hr1)
    subst hx
    have hmant : f32Mantissa (c :: t) = some (r2.dropWhile Char.isDigit) := by
      unfold f32Mantissa
      rw [hr1]
      simp [hne]
    rw [hmant]
    have hcc : List.count '.' ('.' :: r2) = List.count '.' r2 + 1 := by
      simp [List.count_cons]
    rw [hcc, count_split_digits r2]
    cases hr3 : r2.dropWhile Char.isDigit with
    | nil =>
      simp [f32ExpTail]
    | cons y r4 =>
      have hymem2 : y ∈ r2 := dropWhile_mem Char.isDigit r2 y (by
        rw [hr3]
        exact List.mem_cons_self y r4)
      have hymem : y ∈ c :: t := by
        refine dropWhile_mem Char.isDigit (c :: t) y ?_
        rw [hr1]
        exact List.mem_cons.mpr (Or.inr hymem2)
      have hy : y = '.' :=
        hdot y hymem (dropWhile_head_not Char.isDigit r2 y r4 hr3)
      subst hy
      have hexp : f32ExpTail ('.' :: r4) = false := rfl
      have hcc2 : List.count '.' ('.' :: r4) = List.count '.' r4 + 1 := by
        simp [List.count_cons]
      show f32ExpTail ('.' :: r4) = true ↔ List.count '.' ('.' :: r4) + 1 ≤ 1
      rw [hexp, hcc2]
      constructor
      · intro hfalse
        exact Bool.noConfusion hfalse
      · intro hle
        omega

theorem tokenize_number_int (c : Char) (t : List Char) (file : String) (n : Nat)
    (hc : c.isDigit = true)
    (hall : ∀ d ∈ c :: t, d = '.' ∨ d.isDigit = true)
    (hU : byteLen (c :: t) < USIZE)
    (hu : parseU32 (c :: t) = some n) :
    tokenizeSource (c :: t) file = .ok [{ line := 1, kind := .Int n }] := by
  have hd0 : (Lexer.new (c :: t) file).program.drop
      (Lexer.new (c :: t) file).position = c :: t := rfl
  have hc0 : current (Lexer.new (c :: t) file) = some c := current_of_drop hd0
  have hend0 : is_at_end (Lexer.new (c :: t) file) = false := not_atEnd_of_drop hd0
  have hprev1 : previous (advance (Lexer.new (c :: t) file)).2 = some c := by
    show nthChar (c :: t) (prevIndex ((Lexer.new (c :: t) file).position + 1)) = some c
    rw [prevIndex_succ ((Lexer.new (c :: t) file).position) USIZE_pos]
    exact hc0
  have hdrop1 : (advance (Lexer.new (c :: t) file)).2.program.drop
      (advance (Lexer.new (c :: t) file)).2.position = t := rfl
  have hall_t : ∀ d ∈ t, d = '.' ∨ d.isDigit = true :=
    fun d hd => hall d (List.mem_cons.mpr (Or.inr hd))
  have hascii : byteLen (c :: t) = (c :: t).length :=
    byteLen_ascii (c :: t) (fun d hd => hall d hd)
  have hpn := parse_number_eval_int (advance (Lexer.new (c :: t) file)).2 c t n
    hprev1 hdrop1 hall_t hascii hu
  have hpt : parse_token (Lexer.new (c :: t) file) =
      .ok (push_token
        { (advance (Lexer.new (c :: t) file)).2 with
          position := (advance (Lexer.new (c :: t) file)).2.position + t.length }
        (.Int n)) := by
    rw [parse_token_number USIZE_pos hc0 (dispatch_digit hc), hpn]
    try rfl
  calc tokenizeSource (c :: t) file
      = tokenizeLoopF (byteLen (c :: t) + 1) (Lexer.new (c :: t) file) := rfl
    _ = tokenizeLoopF (byteLen (c :: t))
        (push_token
          { (advance (Lexer.new (c :: t) file)).2 with
            position := (advance (Lexer.new (c :: t) file)).2.position + t.length }
          (.Int n)) := tokenizeLoopF_step _ hend0 hpt
    _ = .ok [{ line := 1, kind := .Int n }] := by
        rw [tokenizeLoopF_past _ _ hU (by
          show (c :: t).length ≤ 0 + 1 + t.length
          simp only [List.length_cons]
          omega)]
        rfl

set_option maxRecDepth 4096 in
theorem tokenize_number_float (c : Char) (t : List Char) (file : String)
    (hc : c.isDigit = true)
    (hall : ∀ d ∈ c :: t, d = '.' ∨ d.isDigit = true)
    (hU : byteLen (c :: t) < USIZE)
    (hu : parseU32 (c :: t) = none) (hf : f32Accepts (c :: t) = true) :
    tokenizeSource (c :: t) file = .ok [{ line := 1, kind := .Float ⟨c :: t⟩ }] := by
  have hd0 : (Lexer.new (c :: t) file).program.drop
      (Lexer.new (c :: t) file).position = c :: t := rfl
  have hc0 : current (Lexer.new (c :: t) file) = some c := current_of_drop hd0
  have hend0 : is_at_end (Lexer.new (c :: t) file) = false := not_atEnd_of_drop hd0
  have hprev1 : previous (advance (Lexer.new (c :: t) file)).2 = some c := by
    show nthChar (c :: t) (prevIndex ((Lexer.new (c :: t) file).position + 1)) = some c
    rw [prevIndex_succ ((Lexer.new (c :: t) file).position) USIZE_pos]
    exact hc0
  have hdrop1 : (advance (Lexer.new (c :: t) file)).2.program.drop
      (advance (Lexer.new (c :: t) file)).2.position = t := rfl
  have hall_t : ∀ d ∈ t, d = '.' ∨ d.isDigit = true :=
    fun d hd => hall d (List.mem_cons.mpr (Or.inr hd))
  have hascii : byteLen (c :: t) = (c :: t).length :=
    byteLen_ascii (c :: t) (fun d hd => hall d hd)
  have hpn := parse_number_eval_float (advance (Lexer.new (c :: t) file)).2 c t
    hprev1 hdrop1 hall_t hascii hu hf
  have hpt : parse_token (Lexer.new (c :: t) file) =
      .ok (push_token
        { (advance (Lexer.new (c :: t) file)).2 with
          position := (advance (Lexer.new (c :: t) file)).2.position + t.length }
        (.Float ⟨c :: t⟩)) := by
    rw [parse_token_number USIZE_pos hc0 (dispatch_digit hc), hpn]
    try rfl
  calc tokenizeSource (c :: t) file
      = tokenizeLoopF (byteLen (c :: t) + 1) (Lexer.new (c :: t) file) := rfl
    _ = tokenizeLoopF (byteLen (c :: t))
        (push_token
          { (advance (Lexer.new (c :: t) file)).2 with
            position := (advance (Lexer.new (c :: t) file)).2.position + t.length }
          (.Float ⟨c :: t⟩)) := tokenizeLoopF_step _ hend0 hpt
    _ = .ok [{ line := 1, kind := .Float ⟨c :: t⟩ }] := by
        rw [tokenizeLoopF_past _ _ hU (by
          show (c :: t).length ≤ 0 + 1 + t.length
          simp only [List.length_cons]
          omega)]
        rfl

theorem tokenize_number_panic (c : Char) (t : List Char) (file : String)
    (hc : c.isDigit = true)
    (hall : ∀ d ∈ c :: t, d = '.' ∨ d.isDigit = true)
    (hU : byteLen (c :: t) < USIZE)
    (hu : parseU32 (c :: t) = none) (hf : f32Accepts (c :: t) = false) :
    tokenizeSource (c :: t) file = .panicked := by
  have hd0 : (Lexer.new (c :: t) file).program.drop
      (Lexer.new (c :: t) file).position = c :: t := rfl
  have hc0 : current (Lexer.new (c :: t) file) = some c := current_of_drop hd0
  have hend0 : is_at_end (Lexer.new (c :: t) file) = false := not_atEnd_of_drop hd0
  have hprev1 : previous (advance (Lexer.new (c :: t) file)).2 = some c := by
    show nthChar (c :: t) (prevIndex ((Lexer.new (c :: t) file).position + 1)) = some c
    rw [prevIndex_succ ((Lexer.new (c :: t) file).position) USIZE_pos]
    exact hc0
  have hdrop1 : (advance (Lexer.new (c :: t) file)).2.program.drop
      (advance (Lexer.new (c :: t) file)).2.position = t := rfl
  have hall_t : ∀ d ∈ t, d = '.' ∨ d.isDigit = true :=
    fun d hd => hall d (List.mem_cons.mpr (Or.inr hd))
  have hascii : byteLen (c :: t) = (c :: t).length :=
    byteLen_ascii (c :: t) (fun d hd => hall d hd)
  have hpn := parse_number_eval_panic (advance (Lexer.new (c :: t) file)).2 c t
    hprev1 hdrop1 hall_t hascii hu hf
  have hpt : parse_token (Lexer.new (c :: t) file) = .panicked := by
    rw [parse_token_number USIZE_pos hc0 (dispatch_digit hc), hpn]
  show tokenizeLoopF (byteLen (c :: t) + 1) (Lexer.new (c :: t) file) = .panicked
  exact tokenizeLoopF_step_panic (byteLen (c :: t)) hend0 hpt

/-- Claim C5 counterexample: on the numeric lexeme `4..5` the unsigned
integer parse fails and the float re-parse of the same raw text fails too,
so tokenize panics on the `.unwrap()` instead of emitting a `Float` token as
the claim states. -/
theorem number_multi_dot_panics :
    tokenizeSource ['4', '.', '.', '5'] "f" = .panicked ∧
    tokenizeSource ['4', '.', '.', '5'] "f" ≠
      .ok [{ line := 1, kind := .Float "4..5" }] := by
  constructor
  · decide
  · decide

/-- Claim C5 (amended): for every numeric lexeme (a digit followed by digits
and dots, forming the whole input), the scanner first attempts the `u32`
parse and emits `Int` of that value on success; on failure it re-parses the
raw text as `f32` and emits `Float` of it when that parse succeeds, and
panics on the `.unwrap()` when it fails as well.  In particular every
digit-only sequence whose value fits in `u32` yields exactly one `Int`
token with its numeric value. -/
theorem number_lexeme_parse_policy (c : Char) (t : List Char) (file : String)
    (hc : c.isDigit = true) (hall : ∀ d ∈ c :: t, d = '.' ∨ d.isDigit = true)
    (hU : byteLen (c :: t) < USIZE) :
    (∀ n, parseU32 (c :: t) = some n →
        tokenizeSource (c :: t) file = .ok [{ line := 1, kind := .Int n }]) ∧
    (parseU32 (c :: t) = none → f32Accepts (c :: t) = true →
        tokenizeSource (c :: t) file = .ok [{ line := 1, kind := .Float ⟨c :: t⟩ }]) ∧
    (parseU32 (c :: t) = none → f32Accepts (c :: t) = false →
        tokenizeSource (c :: t) file = .panicked) ∧
    ((∀ d ∈ c :: t, d.isDigit = true) → digitsToNat (c :: t) < 2 ^ 32 →
        tokenizeSource (c :: t) file =
          .ok [{ line := 1, kind := .Int (digitsToNat (c :: t)) }]) := by
  refine ⟨fun n hu => tokenize_number_int c t file n hc hall hU hu,
          fun hu hf => tokenize_number_float c t file hc hall hU hu hf,
          fun hu hf => tokenize_number_panic c t file hc hall hU hu hf,
          fun hd hlt => tokenize_number_int c t file _ hc hall hU
            (parseU32_digits_some c t hc
              (fun d hdm => hd d (List.mem_cons.mpr (Or.inr hdm))) hlt)⟩

/-- Claim C9 counterexample: on the reachable numeric lexeme `1.2.3` the
float parse of the raw text fails — the `.unwrap()` panics, refuting the
claim that the unchecked float parse never fails. -/
theorem float_unwrap_fails_on_1_2_3 :
    tokenizeSource ['1', '.', '2', '.', '3'] "f" = .panicked ∧
    f32Accepts ['1', '.', '2', '.', '3'] = false := by
  constructor
  · decide
  · decide

/-- Claim C9 (amended): for a numeric lexeme reachable through the number
sub-scanner whose `u32` parse fails, the fallback `f32` parse succeeds
exactly when the lexeme contains at most one dot; with a single dot the
scanner emits the `Float` token, while two or more dots make the
`.unwrap()` panic. -/
theorem float_fallback_succeeds_iff_single_dot (c : Char) (t : List Char) (file : String)
    (hc : c.isDigit = true) (hall : ∀ d ∈ c :: t, d = '.' ∨ d.isDigit = true)
    (hU : byteLen (c :: t) < USIZE) (hu : parseU32 (c :: t) = none) :
    (f32Accepts (c :: t) = true ↔ (c :: t).count '.' ≤ 1) ∧
    ((c :: t).count '.' ≤ 1 →
      tokenizeSource (c :: t) file = .ok [{ line := 1, kind := .Float ⟨c :: t⟩ }]) ∧
    (2 ≤ (c :: t).count '.' → tokenizeSource (c :: t) file = .panicked) := by
  refine ⟨f32Accepts_digit_lexeme c t hc hall, fun hcount => ?_, fun hcount => ?_⟩
  · exact tokenize_number_float c t file hc hall hU hu
      ((f32Accepts_digit_lexeme c t hc hall).mpr hcount)
  · have hf : f32Accepts (c :: t) = false := by
      cases hfa : f32Accepts (c :: t)
      · rfl
      · exact absurd ((f32Accepts_digit_lexeme c t hc hall).mp hfa) (by omega)
    exact tokenize_number_panic c t file hc hall hU hu hf

/-! ## Behaviour of the comment skipper and whitespace-and-comment inputs -/

theorem drop_cons_of_nthChar {s : List Char} {i : Nat} {c : Char}
    (h : nthChar s i = some c) : s.drop i = c :: s.drop (i + 1) := by
  rw [nthChar_eq_get?] at h
  obtain ⟨hlt, hg⟩ := List.get?_eq_some.mp h
  rw [List.drop_eq_get_cons hlt, hg]

theorem drop_append_right (a : List Char) :
    ∀ (b : List Char) (n : Nat), a.length ≤ n → (a ++ b).drop n = b.drop (n - a.length) := by
  induction a with
  | nil => intro b n h; simp
  | cons x xs ih =>
    intro b n h
    cases n with
    | zero => simp at h
    | succ m =>
      simp only [List.cons_append, List.drop_succ_cons, List.length_cons]
      rw [ih b m (by simpa using h)]
      congr 1
      omega

/-- Exit states of the comment-skipping loop: either the cursor has run past
the end-of-input bound, or it sits one past some newline of the program (the
newline consumed by the loop's test `advance`). -/
theorem skipCommentLoopF_exit (fuel : Nat) :
    ∀ l : Lexer, byteLen l.program < USIZE → byteLen l.program ≤ l.position + fuel →
      byteLen l.program ≤ (skipCommentLoopF fuel l).position ∨
      ∃ i, nthChar l.program i = some '\n' ∧ (skipCommentLoopF fuel l).position = i + 1 := by
  induction fuel with
  | zero =>
    intro l hU hf
    left
    show byteLen l.program ≤ l.position
    omega
  | succ n ih =>
    intro l hU hf
    simp only [skipCommentLoopF]
    by_cases hend : is_at_end l = true
    · rw [if_pos hend]
      left
      exact atEnd_true_pos hend
    · rw [if_neg hend]
      rw [Bool.not_eq_true] at hend
      have hpos := atEnd_false_pos hend
      have hpU : l.position < USIZE := lt_of_lt_of_le hpos (le_of_lt hU)
      rw [advance_fst l hpU]
      by_cases hnl : nthChar l.program l.position = some '\n'
      · rw [if_pos hnl]
        right
        exact ⟨l.position, hnl, rfl⟩
      · rw [if_neg hnl]
        have h2 := ih (advance (advance l).2).2 hU (by
          show byteLen l.program ≤ (l.position + 2) + n
          omega)
        exact h2

/-- In a whitespace-and-comments input, everything after any newline is
again a whitespace-and-comments input. -/
theorem WsComments_nlGood {s : List Char} (h : WsComments s) :
    ∀ i, nthChar s i = some '\n' → WsComments (s.drop (i + 1)) := by
  induction h with
  | nil =>
    intro i hi
    rw [nthChar_eq_get?] at hi
    simp at hi
  | ws c rest hws hrest ih =>
    intro i hi
    cases i with
    | zero => exact hrest
    | succ j =>
      rw [nthChar_eq_get?] at hi
      have hj : nthChar rest j = some '\n' := by
        rw [nthChar_eq_get?]
        exact hi
      exact ih j hj
  | comment body rest hbody hrest ih =>
    intro i hi
    rw [nthChar_eq_get?] at hi
    cases i with
    | zero => simp at hi
    | succ j =>
      have hj : (body ++ '\n' :: rest).get? j = some '\n' := hi
      by_cases hjb : j < body.length
      · rw [List.get?_append hjb] at hj
        exact absurd rfl (hbody '\n' (List.get?_mem hj))
      · by_cases hje : j = body.length
        · subst hje
          show WsComments (('#' :: (body ++ '\n' :: rest)).drop (body.length + 1 + 1))
          have hdrop : ('#' :: (body ++ '\n' :: rest)).drop (body.length + 1 + 1) = rest := by
            show (body ++ '\n' :: rest).drop (body.length + 1) = rest
            rw [drop_append_right body ('\n' :: rest) (body.length + 1) (by omega)]
            rw [show body.length + 1 - body.length = 1 from by omega]
            rfl
          rw [hdrop]
          exact hrest
        · have hjg : body.length < j := by omega
          rw [List.get?_append_right (by omega)] at hj
          have hm : rest.get? (j - body.length - 1) = some '\n' := by
            cases hjj : j - body.length with
            | zero => omega
            | succ m =>
              rw [hjj] at hj
              exact hj
          have hrec := ih (j - body.length - 1) (by rw [nthChar_eq_get?]; exact hm)
          show WsComments (('#' :: (body ++ '\n' :: rest)).drop (j + 1 + 1))
          have e1 : ('#' :: (body ++ '\n' :: rest)).drop (j + 1 + 1) =
              rest.drop (j - body.length) := by
            show (body ++ '\n' :: rest).drop (j + 1) = rest.drop (j - body.length)
            rw [drop_append_right body ('\n' :: rest) (j + 1) (by omega)]
            rw [show j + 1 - body.length = (j - body.length - 1) + 2 from by omega]
            rw [show ('\n' :: rest).drop ((j - body.length - 1) + 2) =
              rest.drop ((j - body.length - 1) + 1) from rfl]
            congr 1
            omega
          rw [e1]
          rw [show j - body.length = (j - body.length - 1) + 1 from by omega]
          exact hrec

theorem WsComments_cons_inv {c : Char} {X : List Char} (h : WsComments (c :: X)) :
    (isRustWhitespace c = true ∧ WsComments X) ∨
    (c = '#' ∧ WsComments (c :: X)) := by
  cases h with
  | ws _ _ hws hrest => exact Or.inl ⟨hws, hrest⟩
  | comment body rest hbody hrest =>
    exact Or.inr ⟨rfl, WsComments.comment body rest hbody hrest⟩

/-- The driving loop on a whitespace-and-comments remainder: nothing is ever
pushed and no error is raised, so the loop returns the tokens it started
with. -/
theorem tokenizeLoopF_wsComments (fuel : Nat) :
    ∀ l : Lexer, byteLen l.program < USIZE →
      byteLen l.program ≤ l.position + fuel →
      (∀ i, nthChar l.program i = some '\n' → WsComments (l.program.drop (i + 1))) →
      WsComments (l.program.drop l.position) →
      tokenizeLoopF fuel l = .ok l.tokens := by
  induction fuel with
  | zero => intro l hU hf hnl hws; rfl
  | succ n ih =>
    intro l hU hf hnl hws
    by_cases hend : is_at_end l = true
    · simp only [tokenizeLoopF, hend, if_true]
    · rw [Bool.not_eq_true] at hend
      have hpos := atEnd_false_pos hend
      have hpU : l.position < USIZE := lt_of_lt_of_le hpos (le_of_lt hU)
      cases hcur : current l with
      | none =>
        rw [tokenizeLoopF_step n hend (parse_token_none hpU hcur)]
        have hlen : l.program.length ≤ l.position := by
          have h1 : l.program.get? l.position = none := by
            rw [← nthChar_eq_get?]
            exact hcur
          exact List.get?_eq_none.mp h1
        exact ih (advance l).2 hU
          (by show byteLen l.program ≤ (l.position + 1) + n; omega)
          hnl
          (by show WsComments (l.program.drop (l.position + 1))
              rw [List.drop_eq_nil_of_le (by omega)]
              exact WsComments.nil)
      | some c =>
        have hdropc := drop_cons_of_nthChar
          (show nthChar l.program l.position = some c from hcur)
        rw [hdropc] at hws
        rcases WsComments_cons_inv hws with ⟨hwsc, hrest⟩ | ⟨hhash, hcm⟩
        · by_cases hcn : c = '\n'
          · subst hcn
            rw [tokenizeLoopF_step n hend (parse_token_nl hpU hcur)]
            exact ih { (advance l).2 with line := (advance l).2.line + 1 } hU
              (by show byteLen l.program ≤ (l.position + 1) + n; omega)
              hnl
              (by show WsComments (l.program.drop (l.position + 1)); exact hrest)
          · rw [tokenizeLoopF_step n hend
              (parse_token_ignore hpU hcur (dispatch_ws hwsc hcn))]
            exact ih (advance l).2 hU
              (by show byteLen l.program ≤ (l.position + 1) + n; omega)
              hnl
              (by show WsComments (l.program.drop (l.position + 1)); exact hrest)
        · subst hhash
          rw [tokenizeLoopF_step n hend (parse_token_hash hpU hcur)]
          have hsc := skip_comment_state (advance l).2
          have hexit : byteLen l.program ≤
              (skipCommentLoopF (byteLen l.program + 1) (advance l).2).position ∨
              ∃ i, nthChar l.program i = some '\n' ∧
                (skipCommentLoopF (byteLen l.program + 1) (advance l).2).position = i + 1 :=
            skipCommentLoopF_exit (byteLen l.program + 1) (advance l).2 hU
              (by show byteLen l.program ≤ (l.position + 1) + (byteLen l.program + 1); omega)
          have epos : (skip_comment (advance l).2).position =
              (skipCommentLoopF (byteLen l.program + 1) (advance l).2).position := rfl
          have e1 : (advance l).2.position = l.position + 1 := rfl
          have e2 : (advance l).2.program = l.program := rfl
          have hres := ih (skip_comment (advance l).2)
            (by rw [hsc.1]; exact hU)
            (by rw [hsc.1, e2]
                have hmono := hsc.2.2.2.2
                rw [e1] at hmono
                omega)
            (by rw [hsc.1]; exact hnl)
            (by rw [hsc.1, e2]
                rcases hexit with hge | ⟨i, hni, hpi⟩
                · rw [List.drop_eq_nil_of_le (by
                    rw [epos]
                    have hlb := length_le_byteLen l.program
                    omega)]
                  exact WsComments.nil
                · rw [epos, hpi]
                  exact hnl i hni)
          rw [hres, hsc.2.2.1]
          rfl

/-- Claim C1: an input consisting only of whitespace characters and
`#`-comments correctly terminated by a newline is tokenized successfully
into the empty token sequence — no token is emitted even though the comment
skipper may consume two characters per loop iteration. -/
theorem ws_comments_tokenize_empty (s : List Char) (file : String)
    (hU : byteLen s < USIZE) (h : WsComments s) :
    tokenizeSource s file = .ok [] := by
  show tokenizeLoopF (byteLen s + 1) (Lexer.new s file) = .ok []
  exact tokenizeLoopF_wsComments (byteLen s + 1) (Lexer.new s file) hU
    (by show byteLen s ≤ 0 + (byteLen s + 1); omega)
    (WsComments_nlGood h)
    h

/-! ## Claims about the cursor primitives and termination -/

/-- Claim C1 witness at a concrete input: a comment terminated by a newline
followed by whitespace tokenizes to the empty sequence. -/
theorem ws_comments_tokenize_empty_witness :
    tokenizeSource ['#', 'c', '\n', ' ', '\t'] "f" = .ok [] :=
  ws_comments_tokenize_empty ['#', 'c', '\n', ' ', '\t'] "f" (by decide)
    (WsComments.comment ['c'] [' ', '\t'] (by decide)
      (WsComments.ws ' ' ['\t'] (by decide)
        (WsComments.ws '\t' [] (by decide) WsComments.nil)))

/-- Claim C2 witness at a concrete input: the literal `"ok"` yields exactly
the token `String "ok"`. -/
theorem string_literal_roundtrip_witness :
    tokenizeSource ('"' :: (['o', 'k'] ++ ['"'])) "f" =
      .ok [{ line := 1, kind := .String ⟨['o', 'k']⟩ }] :=
  string_literal_roundtrip ['o', 'k'] "f" (by decide) (by decide) (by decide)

/-- Claim C3 witness at a concrete input: an unclosed literal fails with the
unterminated-string error. -/
theorem unterminated_string_fails_witness :
    tokenizeSource ('"' :: ['h', 'i']) "f" =
      .err { file := "f", line := 1, message := "Unterminated string", hint := none } :=
  unterminated_string_fails ['h', 'i'] "f" (by decide) (by decide) (by decide)

/-- Claim C4 witness at a concrete input: after two leading newlines the
opened string holding a raw newline fails at line `3` with the code's
literal message and hint. -/
theorem newline_in_string_fails_witness :
    tokenizeSource (List.replicate 2 '\n' ++ '"' :: (['a'] ++ '\n' :: ['b'])) "f" =
      .err { file := "f", line := 2 + 1, message := "Ilegal newline in string",
             hint := some "use \\n instead" } :=
  newline_in_string_fails 2 ['a'] ['b'] "f" (by decide) (by decide) (by decide)

/-- Claim C5 witness at concrete inputs: `42` yields `Int 42` through the
integer branch of the parse policy. -/
theorem number_lexeme_parse_policy_witness :
    tokenizeSource ('4' :: ['2']) "f" = .ok [{ line := 1, kind := .Int 42 }] :=
  (number_lexeme_parse_policy '4' ['2'] "f" (by decide) (by decide) (by decide)).1
    42 (by decide)

/-- Claim C9 witness at a concrete input: `1.5` has a single dot, the `u32`
parse fails, and the float fallback emits `Float "1.5"`. -/
theorem float_fallback_succeeds_iff_single_dot_witness :
    tokenizeSource ('1' :: ['.', '5']) "f" =
      .ok [{ line := 1, kind := .Float ⟨'1' :: ['.', '5']⟩ }] :=
  (float_fallback_succeeds_iff_single_dot '1' ['.', '5'] "f" (by decide) (by decide)
    (by decide) (by decide)).2.1 (by decide)

/-- Claim C6: every invocation of the comment skipper increments the line
counter by exactly one after its loop finishes, regardless of how many
newline characters the loop consumed (including zero). -/
theorem skip_comment_increments_line_once (l : Lexer) :
    (skip_comment l).line = l.line + 1 :=
  (skip_comment_state l).2.2.2.1

/-- Claim C7 counterexample: advancing at the end is not a state no-op — on
the empty program, which is already at the end, `advance` reports `none` but
moves `position` from `0` to `1`. -/
theorem advance_at_end_moves_position :
    is_at_end (Lexer.new [] "f") = true ∧
    (advance (Lexer.new [] "f")).1 = none ∧
    (advance (Lexer.new [] "f")).2.position = 1 ∧
    (Lexer.new [] "f").position = 0 := by
  refine ⟨rfl, ?_, rfl, rfl⟩
  decide

/-- Claim C7 (amended): `advance()` returns exactly the character that
`current()` returned before the call — `none` at or past the end — and
always increments `position` by one, also at the end; apart from that
increment the state (program, file, tokens, line) is untouched. -/
theorem advance_returns_prior_current (l : Lexer) (h : l.position < USIZE) :
    (advance l).1 = current l ∧
    (advance l).2 = { l with position := l.position + 1 } ∧
    (is_at_end l = true → (advance l).1 = none) := by
  refine ⟨advance_fst l h, rfl, ?_⟩
  intro hend
  rw [advance_fst l h]
  exact current_none_of_ge (le_trans (length_le_byteLen _) (atEnd_true_pos hend))

/-- Claim C7 witness at a concrete input: on the empty program (at the end)
`advance` reports `none` while the state changes only by the position
increment. -/
theorem advance_returns_prior_current_witness :
    (advance (Lexer.new [] "f")).1 = none ∧
    (advance (Lexer.new [] "f")).2 = { Lexer.new [] "f" with position := 0 + 1 } :=
  ⟨(advance_returns_prior_current (Lexer.new [] "f") (by decide)).2.2 rfl,
   (advance_returns_prior_current (Lexer.new [] "f") (by decide)).2.1⟩

/-- Claim C8: `previous()` reads the character immediately before
`position`; at `position = 0` the `usize` subtraction wraps around to
`2^64 - 1`, an index past the end of any addressable program, so the lookup
safely reports `none` instead of failing. -/
theorem previous_reads_before_position (l : Lexer) (hlen : l.program.length < USIZE) :
    (l.position = 0 → previous l = none) ∧
    (0 < l.position → l.position ≤ USIZE →
      previous l = nthChar l.program (l.position - 1)) := by
  have hU := USIZE_pos
  constructor
  · intro h0
    unfold previous prevIndex
    rw [h0]
    simp only [Nat.zero_add]
    rw [Nat.mod_eq_of_lt (by omega)]
    unfold nthChar
    rw [if_neg (by omega)]
  · intro hpos hle
    unfold previous
    have hpi : prevIndex l.position = l.position - 1 := by
      unfold prevIndex
      rw [show l.position + (USIZE - 1) = (l.position - 1) + USIZE from by omega]
      rw [Nat.add_mod_right]
      exact Nat.mod_eq_of_lt (by omega)
    rw [hpi]

/-- Claim C8 witness at a concrete input: at the very start of a two-letter
program, `previous` reports `none`. -/
theorem previous_reads_before_position_witness :
    previous (Lexer.new ['a', 'b'] "f") = none :=
  (previous_reads_before_position (Lexer.new ['a', 'b'] "f") (by decide)).1 rfl

/-- Claim C10: tokenize terminates on every input — a successful
`parse_token` strictly increases `position` while preserving the program,
so the driving loop reaches the `is_at_end` bound within
`byteLen program - position` steps: any two sufficient fuels give the same
result. -/
theorem tokenize_terminates :
    (∀ l l' : Lexer, parse_token l = .ok l' →
      l'.program = l.program ∧ l.position < l'.position) ∧
    (∀ (l : Lexer) (f1 f2 : Nat),
      byteLen l.program ≤ l.position + f1 → byteLen l.program ≤ l.position + f2 →
      tokenizeLoopF f1 l = tokenizeLoopF f2 l) := by
  constructor
  · intro l l' h
    have hm := parse_token_mono h
    exact ⟨hm.1, by have h5 := hm.2.2; omega⟩
  · intro l f1 f2 h1 h2
    exact tokenizeLoopF_fuel f1 l f2 h1 h2

/-- Claim C10 witness at a concrete input: `parse_token` moved the cursor
past the consumed parenthesis, and fuels `2` and `9` (both at least the
remaining byte length) agree on the result. -/
theorem tokenize_terminates_witness :
    ((Lexer.new ['('] "f").position <
      (push_token { Lexer.new ['('] "f" with position := 0 + 1 } TokenKind.LParen).position) ∧
    tokenizeLoopF 2 (Lexer.new ['('] "f") = tokenizeLoopF 9 (Lexer.new ['('] "f") :=
  ⟨(tokenize_terminates.1 (Lexer.new ['('] "f")
      (push_token { Lexer.new ['('] "f" with position := 0 + 1 } TokenKind.LParen)
      (by decide)).2,
   tokenize_terminates.2 (Lexer.new ['('] "f") 2 9 (by decide) (by decide)⟩
